import Mathlib

/-!
Verification of the rule-matching core of `show-excluded-and-ignored`
(an rclone-style filter visualizer).  The development shallowly embeds:

* `src/rfe/models/rules_model.py` — the filter-file parser (`parse_filter_file`),
* `src/rfe/models/match_engine.py` — pattern expansion and the first-match-wins
  match engine (built on Python 3.11 `PurePosixPath.match` / `fnmatch` semantics;
  the repository pins Python 3.11 in its noxfile),
* `src/rfe/workers/scan_worker.py` — the scan orchestrator: cooperative
  cancellation/pause, progress emission, statistics, and tree reconstruction.

Strings are modelled as `List Char` in the core, matching Python string
slicing; the public API wraps `String`.  Machine-level concerns (real time
stamps from `monotonic()`, actual filesystem I/O) are abstracted as explicit
inputs: a scan consumes a precomputed walk listing together with per-entry
stat/evaluation outcomes, and cancellation/pause flags become oracles indexed
by the checkpoint counter of the traversal loop.
-/

deriving instance DecidableEq for Except

namespace RFE

/-! ## Character and string helpers (Python `str` semantics, ASCII subset) -/

/-- Whitespace characters stripped by Python `str.strip()` (ASCII subset:
space, tab, newline, carriage return, vertical tab, form feed). -/
def isSpaceChar (c : Char) : Bool :=
  c == ' ' || c == '\t' || c == '\n' || c == '\x0d' || c == Char.ofNat 11 || c == Char.ofNat 12

/-- Lowercase one character, mirroring Python `str.lower` on ASCII. -/
def lowerChar (c : Char) : Char :=
  if 'A' ≤ c ∧ c ≤ 'Z' then Char.ofNat (c.toNat + 32) else c

/-- Lowercase a character list, mirroring Python `str.lower` on ASCII. -/
def lowerStr (s : List Char) : List Char :=
  s.map lowerChar

/-- Drop leading characters satisfying `p` (Python `lstrip`). -/
def lstripP (p : Char → Bool) : List Char → List Char
  | [] => []
  | c :: rest => if p c then lstripP p rest else c :: rest

/-- Drop trailing characters satisfying `p` (Python `rstrip`). -/
def rstripP (p : Char → Bool) (s : List Char) : List Char :=
  (lstripP p s.reverse).reverse

/-- Python `str.strip` with predicate `p`. -/
def stripP (p : Char → Bool) (s : List Char) : List Char :=
  rstripP p (lstripP p s)

/-- Python `str.strip()` (whitespace both ends). -/
def stripWs (s : List Char) : List Char :=
  stripP isSpaceChar s

/-- Split a character list on a separator character; keeps empty pieces,
like Python `str.split(sep)`. -/
def splitSep (sep : Char) : List Char → List (List Char)
  | [] => [[]]
  | c :: rest =>
    let tail := splitSep sep rest
    if c == sep then [] :: tail
    else
      match tail with
      | [] => [[c]]
      | seg :: segs => (c :: seg) :: segs

/-- Path components of a POSIX path string the way Python 3.11
`PurePosixPath` computes its `_tail`: split on `/`, dropping empty
components and `.` components. -/
def partsOf (s : List Char) : List (List Char) :=
  (splitSep '/' s).filter (fun seg => seg != [] && seg != ['.'])

/-! ## Shell-glob matching of one path segment

Python's engine matches each path component with `fnmatch.fnmatchcase`.
The function below is Modelled from the spec: the spec states that `*`
matches within a segment, `?` matches one character, and character classes
behave as standard shell glob; `fnmatch` itself is CPython library code that
is not part of this repository.  The matcher is fuel-based so that it is
structurally recursive (every recursive call strictly reduces
`pattern.length + s.length`, and the wrapper supplies sufficient fuel, as
proved in `globSegF_isSome`). -/

/-- Decide whether character `c` is accepted by the bracket-class body
`body` (the characters strictly between `[` and `]`), supporting ranges
`a-b` and literal characters. -/
def classAccepts (c : Char) : List Char → Bool
  | lo :: '-' :: hi :: rest =>
    (lo ≤ c && c ≤ hi) || classAccepts c rest
  | x :: rest => (x == c) || classAccepts c rest
  | [] => false

/-- Accumulate class-body characters until the closing `]`, returning the
body (reversed accumulator) and the pattern remainder after `]`. -/
def scanClassAux (acc : List Char) : List Char → Option (List Char × List Char)
  | [] => none
  | c :: rest =>
    if c == ']' then some (acc.reverse, rest) else scanClassAux (c :: acc) rest

/-- Scan a bracket expression after `[` (and after a possible leading `!`):
return the class body and the remaining pattern after the closing `]`, or
`none` when no closing bracket exists (then `[` is literal).  A `]` that
appears first belongs to the body, as in shell glob. -/
def scanClass (p : List Char) : Option (List Char × List Char) :=
  match p with
  | ']' :: rest => scanClassAux [']'] rest
  | _ => scanClassAux [] p

/-- Fuel-based shell-glob matcher for a single path segment: `*` matches any
character sequence, `?` any single character, `[...]`/`[!...]` character
classes, other characters literally. -/
def globSegF : Nat → List Char → List Char → Bool
  | 0, _, _ => false
  | _ + 1, [], s => s.isEmpty
  | fuel + 1, '*' :: ps, s =>
    globSegF fuel ps s ||
      (match s with
       | [] => false
       | _ :: s2 => globSegF fuel ('*' :: ps) s2)
  | fuel + 1, '?' :: ps, s =>
    match s with
    | [] => false
    | _ :: s2 => globSegF fuel ps s2
  | fuel + 1, '[' :: ps, s =>
    match s with
    | [] => false
    | c :: s2 =>
      match ps with
      | '!' :: ps2 =>
        match scanClass ps2 with
        | some (body, rem) => !classAccepts c body && globSegF fuel rem s2
        | none => ('[' == c) && globSegF fuel ps s2
      | _ =>
        match scanClass ps with
        | some (body, rem) => classAccepts c body && globSegF fuel rem s2
        | none => ('[' == c) && globSegF fuel ps s2
  | fuel + 1, pc :: ps, s =>
    match s with
    | [] => false
    | c :: s2 => (pc == c) && globSegF fuel ps s2

/-- Shell-glob match of a pattern segment against a path segment. -/
def globSeg (pat s : List Char) : Bool :=
  globSegF (pat.length + s.length + 1) pat s

/-! ## PurePosixPath.match against a relative candidate path

Python 3.11 `PurePath.match`: parse the pattern into (drive, root, parts);
raise `ValueError` when the part list is empty; a rooted pattern whose root
differs from the path's root never matches (the engine's candidate paths are
always relative, so any rooted pattern yields `False`); otherwise the pattern
parts are matched right-aligned against the path parts, each component with
`fnmatch.fnmatchcase`.  The `ValueError` is modelled as `Except.error ()`. -/

/-- Match one glob pattern against the parts of a relative candidate path,
mirroring Python 3.11 `PurePosixPath.match`. -/
def patMatchOne (pattern : List Char) (pathParts : List (List Char)) : Except Unit Bool :=
  if pattern.head? == some '/' then
    .ok false
  else
    match partsOf pattern with
    | [] => .error ()
    | pparts =>
      if pathParts.length < pparts.length then
        .ok false
      else
        .ok ((List.zip pathParts.reverse pparts.reverse).all fun pq => globSeg pq.2 pq.1)

/-! ## Pattern expansion (`MatchEngine._expand_patterns`)

The engine generates variants that treat `**` components as optional: a
work queue repeatedly removes one occurrence of `"**/"`, `"/**"` or `"**"`
from a variant, keeping non-empty unseen results.  The Python queue is a
list used as a stack (`append`/`pop`); here the head of the queue models the
Python list's tail.  The loop is given explicit fuel; `expandAux_total`
proves the fuel chosen by `expandPatternsL` is always sufficient. -/

/-- Removable wildcard tokens, in the scan priority order of the source. -/
def expTokens : List (List Char) := ["**/".data, "/**".data, "**".data]

/-- All start indexes at which `tok` occurs in `s` (Python `str.find`
iterated with `start + 1`, which enumerates every occurrence, overlapping
ones included, in increasing order). -/
def findOccs (tok s : List Char) : List Nat :=
  (List.range s.length).filter (fun i => tok.isPrefixOf (s.drop i))

/-- Remove `len` characters of `s` starting at index `i`
(`current[:start] + current[start + len(token):]`). -/
def removeAt (i len : Nat) (s : List Char) : List Char :=
  s.take i ++ s.drop (i + len)

/-- All reduced variants derived from `c` by removing a single token
occurrence, in the order the source generates them. -/
def childrenOf (c : List Char) : List (List Char) :=
  (expTokens.map (fun tok => (findOccs tok c).map (fun i => removeAt i tok.length c))).flatten

/-- Enqueue the candidate variants that are non-empty and unseen, extending
the seen set and pushing onto the stack in generation order. -/
def enqueueAll : List (List Char) → List (List Char) → List (List Char) →
    List (List Char) × List (List Char)
  | [], variants, queue => (variants, queue)
  | c :: rest, variants, queue =>
    if c ≠ [] ∧ c ∉ variants then enqueueAll rest (variants ++ [c]) (c :: queue)
    else enqueueAll rest variants queue

/-- Strict code-point comparison of characters (Python string comparison
compares code points). -/
def charLtB (a b : Char) : Bool := a.toNat < b.toNat

/-- Strict lexicographic comparison of lists from a strict comparison of
elements: a proper prefix is smaller, otherwise the first differing
element decides (Python sequence `<`). -/
def listLtB [BEq α] (ltB : α → α → Bool) : List α → List α → Bool
  | [], [] => false
  | [], _ :: _ => true
  | _ :: _, [] => false
  | x :: xs, y :: ys => ltB x y || (x == y && listLtB ltB xs ys)

/-- Strict lexicographic comparison of character lists (Python string `<`). -/
def lexLt : List Char → List Char → Bool := listLtB charLtB

/-- Lexicographic less-or-equal on character lists (Python string `<=`). -/
def lexLe (a b : List Char) : Bool := lexLt a b || a == b

/-- Ordering used for the final variant list: longest string first, then
lexicographic (Python `sorted` with key `(-len(item), item)`). -/
def varKeyLE (a b : List Char) : Prop :=
  b.length < a.length ∨ (a.length = b.length ∧ lexLe a b = true)

instance : DecidableRel varKeyLE := fun a b => by
  unfold varKeyLE
  infer_instance

/-- Work-queue loop of `_expand_patterns`, with explicit fuel consumed once
per popped variant. -/
def expandAux : Nat → List (List Char) → List (List Char) → Option (List (List Char))
  | _, variants, [] => some (List.insertionSort varKeyLE variants)
  | 0, _, _ :: _ => none
  | fuel + 1, variants, c :: queue =>
    let next := enqueueAll (childrenOf c) variants queue
    expandAux fuel next.1 next.2

/-- Fuel sufficient for the expansion loop (proved in `expandAux_total`). -/
def expandFuel (p : List Char) : Nat := 2 * 2 ^ p.length + 1

/-- Expansion of one pattern into its ordered variant list
(`MatchEngine._expand_patterns`). -/
def expandPatternsL (p : List Char) : List (List Char) :=
  (expandAux (expandFuel p) [p] [p]).getD [p]

/-- String-level wrapper of `expandPatternsL`. -/
def expandPatterns (p : String) : List String :=
  (expandPatternsL p.data).map fun l => String.mk l

/-! ## Rule data model (`rules_model.Rule`) and the match engine -/

/-- Filter rule, as parsed from one line of a filter file. -/
structure Rule where
  action : String
  pattern : String
  lineno : Nat
  enabled : Bool := true
  label : Option String := none
  color : Option String := none
deriving DecidableEq, Repr

/-- Prepared rule: a rule together with its original index and its expanded
variant lists (case-preserving, and from the lowercased pattern). -/
structure PreparedRule where
  rule : Rule
  index : Nat
  patterns : List (List Char)
  patterns_lower : List (List Char)
deriving DecidableEq, Repr

/-- Outcome of matching a single path (`MatchDecision`). -/
structure MatchDecision where
  matched : Bool
  rule_index : Option Nat := none
  rule : Option Rule := none
deriving DecidableEq, Repr

/-- The match engine: rule list, case flag and the prepared-rule list. -/
structure MatchEngine where
  rules : List Rule
  case_sensitive : Bool
  prepared : List PreparedRule
deriving DecidableEq, Repr

/-- Build the prepared-rule list: one `PreparedRule` per rule with a
non-empty pattern, keeping the original enumeration index. -/
def prepAux : Nat → List Rule → List PreparedRule
  | _, [] => []
  | idx, r :: rest =>
    (if r.pattern ≠ "" then
      [⟨r, idx, expandPatternsL r.pattern.data, expandPatternsL (lowerStr r.pattern.data)⟩]
     else []) ++ prepAux (idx + 1) rest

/-- Engine constructor (`MatchEngine.__init__`); `case_sensitive` defaults
to `false` as in the source. -/
def mkEngine (rules : List Rule) (case_sensitive : Bool := false) : MatchEngine :=
  ⟨rules, case_sensitive, prepAux 0 rules⟩

/-- Rule with its pattern lowercased (used to state case-insensitivity of
the default engine with respect to the pattern text). -/
def lowerRule (r : Rule) : Rule :=
  { r with pattern := String.mk (lowerStr r.pattern.data) }

/-- Prepared rule corresponding to `lowerRule`: both variant lists collapse
to the lowercased variants. -/
def lowerPrep (pr : PreparedRule) : PreparedRule :=
  { rule := lowerRule pr.rule
    index := pr.index
    patterns := pr.patterns_lower
    patterns_lower := pr.patterns_lower }

/-- Normalized candidate of `_prepare_candidate`: strip slashes from both
ends, substituting `"."` for an emptied path. -/
def candidateOf (rel_path : String) : List Char :=
  let normalized := stripP (fun c => c == '/') rel_path.data
  if normalized.isEmpty then ['.'] else normalized

/-- Candidate preparation (`_prepare_candidate`): the POSIX parts of the
candidate and of its lowercased form.  (The source computes the lowered
path only when case-insensitive; computing both is equivalent here.) -/
def prepareCandidate (rel_path : String) : List (List Char) × List (List Char) :=
  (partsOf (candidateOf rel_path), partsOf (lowerStr (candidateOf rel_path)))

/-- Variant loop of `_pattern_matches`: succeed on the first variant that
matches, propagating a `ValueError` from `PurePosixPath.match`. -/
def anyVariantMatches : List (List Char) → List (List Char) → Except Unit Bool
  | [], _ => .ok false
  | p :: rest, pathParts =>
    match patMatchOne p pathParts with
    | .error e => .error e
    | .ok true => .ok true
    | .ok false => anyVariantMatches rest pathParts

/-- Pattern list a prepared rule contributes, by case flag
(`prepared.patterns if self.case_sensitive else prepared.patterns_lower`). -/
def prPatterns (cs : Bool) (pr : PreparedRule) : List (List Char) :=
  if cs then pr.patterns else pr.patterns_lower

/-- Loop of `_matching_indexes`: collect the original index of every
prepared rule any of whose variants matches, in prepared-list order. -/
def matchingAux (cs : Bool) (pathParts : List (List Char)) :
    List PreparedRule → List Nat → Except Unit (List Nat)
  | [], acc => .ok acc
  | pr :: rest, acc =>
    match anyVariantMatches (prPatterns cs pr) pathParts with
    | .error e => .error e
    | .ok true => matchingAux cs pathParts rest (acc ++ [pr.index])
    | .ok false => matchingAux cs pathParts rest acc

/-- Path parts the engine actually tests, by case flag. -/
def MatchEngine.testParts (e : MatchEngine) (rel_path : String) : List (List Char) :=
  let c := prepareCandidate rel_path
  if e.case_sensitive then c.1 else c.2

/-- All matching rule indexes, ascending (`matching_rule_indexes`); an
engine-level `ValueError` surfaces as `Except.error`. -/
def MatchEngine.matching_rule_indexes (e : MatchEngine) (rel_path : String) :
    Except Unit (List Nat) :=
  matchingAux e.case_sensitive (e.testParts rel_path) e.prepared []

/-- First matching decision (`match_path`).  The source indexes
`self._prepared[first]` with the ORIGINAL rule index `first`; the positional
lookup is modelled with `get?`, and `none` models the run failing with an
uncaught exception (`IndexError` from the positional lookup, or the
`ValueError` propagated out of glob matching). -/
def MatchEngine.match_path (e : MatchEngine) (rel_path : String) : Option MatchDecision :=
  match e.matching_rule_indexes rel_path with
  | .error _ => none
  | .ok [] => some { matched := false }
  | .ok (first :: _) =>
    match e.prepared.get? first with
    | none => none
    | some pr => some { matched := true, rule_index := some first, rule := some pr.rule }

/-! ## Filter-file parser (`rules_model.parse_filter_file`)

The parser consumes the file text (the `path.read_text` I/O boundary is
abstracted: the text is the input).  `str.splitlines` is modelled for the
terminators `\n`, `\r\n` and `\r`. -/

/-- Accumulating worker for `splitLines`. -/
def splitLinesAux (cur : List Char) : List Char → List (List Char)
  | [] => [cur.reverse]
  | '\x0d' :: '\n' :: [] => [cur.reverse]
  | '\x0d' :: [] => [cur.reverse]
  | '\n' :: [] => [cur.reverse]
  | '\x0d' :: '\n' :: rest => cur.reverse :: splitLinesAux [] rest
  | '\x0d' :: rest => cur.reverse :: splitLinesAux [] rest
  | '\n' :: rest => cur.reverse :: splitLinesAux [] rest
  | c :: rest => splitLinesAux (c :: cur) rest

/-- Python `str.splitlines()`: split on line terminators, no trailing empty
piece, empty string gives no lines. -/
def splitLines (s : List Char) : List (List Char) :=
  match s with
  | [] => []
  | _ => splitLinesAux [] s

/-- Check whether the input is whitespace immediately followed by `#`
(continuation of a `\s+#` regex match). -/
def wsThenHash : List Char → Bool
  | [] => false
  | c :: rest => if c == '#' then true else if isSpaceChar c then wsThenHash rest else false

/-- Prefix of the input before the first occurrence of one-or-more
whitespace followed by `#` (first piece of `re.split(r"\s+#", s, 1)`). -/
def takeBeforeWsHash : List Char → List Char
  | [] => []
  | c :: rest =>
    if isSpaceChar c && wsThenHash rest then [] else c :: takeBeforeWsHash rest

/-- Split a rule line into action token and pattern
(`rules_model._parse_rule_line`). -/
def parse_rule_line (line : List Char) : Option String × List Char :=
  match line with
  | [] => (none, [])
  | c :: rest =>
    if c == '+' || c == '-' then
      (some (String.mk [c]), rstripP isSpaceChar (takeBeforeWsHash (stripWs rest)))
    else if c == '!' then (some "!", stripWs rest)
    else (none, line)

/-- Characters before the first `:`. -/
def takeUntilColon : List Char → List Char
  | [] => []
  | c :: rest => if c == ':' then [] else c :: takeUntilColon rest

/-- Characters after the first `:`. -/
def afterColon : List Char → List Char
  | [] => []
  | c :: rest => if c == ':' then rest else afterColon rest

/-- Extract `label`/`color` metadata from a comment line
(`rules_model._parse_metadata_comment`). -/
def parseMetadataComment (line : List Char) : Option (String × String) :=
  let stripped := stripWs (lstripP (fun c => c == '#') line)
  if ':' ∈ stripped then
    let key := lowerStr (stripWs (takeUntilColon stripped))
    let value := stripWs (afterColon stripped)
    if key = "label".data || key = "color".data then
      some (String.mk key, String.mk value)
    else none
  else none

/-- Line loop of `parse_filter_file`: 1-based line number, pending label and
color, remaining raw lines. -/
def parseLines : Nat → Option String → Option String → List (List Char) → List Rule
  | _, _, _, [] => []
  | lineno, pLabel, pColor, raw :: rest =>
    let line := stripWs raw
    if line.isEmpty then parseLines (lineno + 1) none none rest
    else if line.head? == some '#' then
      match parseMetadataComment line with
      | some (k, v) =>
        if k = "label" then parseLines (lineno + 1) (some v) pColor rest
        else parseLines (lineno + 1) pLabel (some v) rest
      | none => parseLines (lineno + 1) pLabel pColor rest
    else
      match parse_rule_line line with
      | (none, _) => parseLines (lineno + 1) pLabel pColor rest
      | (some action, pattern) =>
        if action = "+" then parseLines (lineno + 1) none none rest
        else
          { action := action
            pattern := String.mk pattern
            lineno := lineno
            label := pLabel
            color := pColor } :: parseLines (lineno + 1) none none rest

/-- Parse a filter file's text into the ordered rule list
(`rules_model.parse_filter_file`; the file-read I/O is abstracted away,
its `IoError` path being outside the parsing algorithm). -/
def parse_filter_file (text : String) : List Rule :=
  parseLines 1 none none (splitLines text.data)

/-! ## Scan worker (`workers/scan_worker.py`)

The traversal is modelled over an abstract walk listing: `os.walk` yields a
list of directories, each carrying the entries (`dirnames + filenames`) the
loop body visits.  Per-entry OS interaction is precomputed in the entry
record: the outcome of `engine.evaluate_path` (`none` models the caught
`OSError`/`ValueError`, which skips the entry), the `is_dir`/`is_file`
probes and the `stat` outcome.  The shared cancellation flag and pause
event are oracles indexed by a checkpoint counter that advances once per
cancellation/pause check pair; `_wait_if_paused` returning `False` (cancel
observed during a pause) is folded into the `pauseOk` oracle.  Wall-clock
values (`monotonic()`, `elapsed`, `start_time`/`end_time`) are not
modelled; progress events carry the counter fields and the path. -/

/-- Node kind (`fs_model.NodeType`, a `Literal["file", "dir"]`). -/
inductive NodeType where
  | file
  | dir
deriving DecidableEq, Repr

/-- Result of `engine.evaluate_path` for one entry (`MatchResult`, with the
decision flattened). -/
structure EvalRes where
  rel_path : String
  matched : Bool
  rule_index : Option Nat := none
  all_rule_indexes : List Nat := []
deriving DecidableEq, Repr

/-- One filesystem entry of the walk, with its precomputed OS outcomes. -/
structure FsEntry where
  path : String
  eval : Option EvalRes
  is_dir : Bool := false
  is_file : Bool := true
  statRes : Option (Nat × Int) := none
deriving DecidableEq, Repr

/-- Tree node recorded per entry (`fs_model.PathNode`; the mutable
`children` lists live in the separate child map of the tree builder). -/
structure PathNode where
  abs_path : String
  rel_path : String
  type : NodeType
  size : Option Nat := none
  mtime : Option Int := none
  rule_index : Option Nat := none
  rule_ids : List Nat := []
deriving DecidableEq, Repr

/-- Aggregate scan statistics (`ScanStats`; the `monotonic()` time stamps
are not modelled). -/
structure ScanStats where
  scanned : Nat := 0
  matched : Nat := 0
  matched_bytes : Nat := 0
  files : Nat := 0
  folders : Nat := 0
deriving DecidableEq, Repr

/-- Node construction for one entry (`ScanWorker._build_node`): `size` only
for files with a successful `stat`, `mtime` whenever `stat` succeeded,
kind from `is_dir`. -/
def buildNode (e : FsEntry) (res : EvalRes) : PathNode :=
  let size := match e.statRes with
    | some (st_size, _) => if e.is_file then some st_size else none
    | none => none
  let mtime := match e.statRes with
    | some (_, st_mtime) => some st_mtime
    | none => none
  { abs_path := e.path
    rel_path := res.rel_path
    type := if e.is_dir then .dir else .file
    size := size
    mtime := mtime
    rule_index := res.rule_index
    rule_ids := res.all_rule_indexes }

/-- Statistics update of the loop body for one recorded entry: matched
count and matched bytes (files with a known size only), file/folder
counters, scanned counter. -/
def stepStats (st : ScanStats) (e : FsEntry) (res : EvalRes) : ScanStats :=
  let node := buildNode e res
  let st1 := if res.matched then
      { st with
        matched := st.matched + 1
        matched_bytes := st.matched_bytes +
          (if node.type = .file then node.size.getD 0 else 0) }
    else st
  let st2 := if node.type = .file then { st1 with files := st1.files + 1 }
    else { st1 with folders := st1.folders + 1 }
  { st2 with scanned := st2.scanned + 1 }

/-- Contribution of one entry to `matched_bytes`: the stat size for a
recorded entry that matched and is a file with a readable size; directory
matches, skipped entries and files with unreadable size contribute 0. -/
def matchedSize (e : FsEntry) : Nat :=
  match e.eval with
  | none => 0
  | some res =>
    if res.matched ∧ (buildNode e res).type = .file then (buildNode e res).size.getD 0 else 0

/-- Number of cancellation/pause checkpoints of a complete traversal: one
per directory plus one per entry. -/
def checkpointCount (walk : List (List FsEntry)) : Nat :=
  walk.length + (walk.map List.length).sum

/-- Payload delivered on completion (`ScanPayload`): the recorded node map
(keyed by relative path, from which `_build_tree` reconstructs the tree)
and the final statistics. -/
structure ScanPayload where
  nodes : List (String × PathNode)
  stats : ScanStats
deriving DecidableEq, Repr

/-- Observable events of a scan run, in emission order. -/
inductive ScanEvent where
  | progress (files folders matched matched_bytes : Nat) (path : String)
  | finishedSig (payload : ScanPayload)
  | cancelledSig
deriving DecidableEq, Repr

/-- Python-dict insertion: replace in place or append. -/
def mapInsert : List (String × PathNode) → String → PathNode → List (String × PathNode)
  | [], k, v => [(k, v)]
  | (k0, v0) :: rest, k, v =>
    if k0 = k then (k0, v) :: rest else (k0, v0) :: mapInsert rest k v

/-- Inner entry loop of `_run_scan`: per entry, a cancellation checkpoint,
the pause wait, evaluation (skip on failure), node recording, statistics
update and periodic progress emission (`scanned % 200 == 0 or scanned == 1`).
Returns the trace emitted so far together with `none` on cancellation or
the advanced state. -/
def scanEntries (cancel pauseOk : Nat → Bool) :
    Nat → ScanStats → List (String × PathNode) → List ScanEvent → List FsEntry →
    List ScanEvent × Option (Nat × ScanStats × List (String × PathNode))
  | t, st, nm, tr, [] => (tr, some (t, st, nm))
  | t, st, nm, tr, e :: rest =>
    if cancel t then (tr, none)
    else if !pauseOk t then (tr, none)
    else
      match e.eval with
      | none => scanEntries cancel pauseOk (t + 1) st nm tr rest
      | some res =>
        let node := buildNode e res
        let nm2 := mapInsert nm res.rel_path node
        let st2 := stepStats st e res
        let tr2 := if st2.scanned % 200 == 0 || st2.scanned == 1 then
            tr ++ [ScanEvent.progress st2.files st2.folders st2.matched st2.matched_bytes e.path]
          else tr
        scanEntries cancel pauseOk (t + 1) st2 nm2 tr2 rest

/-- Outer directory loop of `_run_scan` (`for dirpath, ... in os.walk`):
a checkpoint per directory, then the entry loop. -/
def scanWalk (cancel pauseOk : Nat → Bool) :
    Nat → ScanStats → List (String × PathNode) → List ScanEvent → List (List FsEntry) →
    List ScanEvent × Option (ScanStats × List (String × PathNode))
  | _, st, nm, tr, [] => (tr, some (st, nm))
  | t, st, nm, tr, d :: ds =>
    if cancel t then (tr, none)
    else if !pauseOk t then (tr, none)
    else
      match scanEntries cancel pauseOk (t + 1) st nm tr d with
      | (tr2, none) => (tr2, none)
      | (tr2, some (t2, st2, nm2)) => scanWalk cancel pauseOk t2 st2 nm2 tr2 ds

/-- Initial node map: the root's own node under the key `""`. -/
def initNodeMap (rootPath : String) : List (String × PathNode) :=
  [("", { abs_path := rootPath, rel_path := "", type := .dir })]

/-- Body of `ScanWorker._run_scan` (run on an existing root): traverse the
walk; on cancellation return `none` with the trace emitted so far; on
completion emit the final sentinel `"done"` progress event and return the
payload. -/
def runScan (cancel pauseOk : Nat → Bool) (rootPath : String) (walk : List (List FsEntry)) :
    List ScanEvent × Option ScanPayload :=
  match scanWalk cancel pauseOk 0 {} (initNodeMap rootPath) [] walk with
  | (tr, none) => (tr, none)
  | (tr, some (st, nm)) =>
    (tr ++ [ScanEvent.progress st.files st.folders st.matched st.matched_bytes "done"],
      some { nodes := nm, stats := st })

/-- Entry point `ScanWorker.start`: run the scan, then emit the terminal
signal — `cancelled` when `_run_scan` returned `None`, `finished` with the
payload otherwise.  Returns the complete event sequence. -/
def startScan (cancel pauseOk : Nat → Bool) (rootPath : String)
    (walk : List (List FsEntry)) : List ScanEvent :=
  match runScan cancel pauseOk rootPath walk with
  | (tr, none) => tr ++ [ScanEvent.cancelledSig]
  | (tr, some p) => tr ++ [ScanEvent.finishedSig p]

/-- Poll loop of `ScanWorker._wait_if_paused`: each poll observes the pause
event (`wait(timeout=0.1)` outcome) and the cancellation flag; return
`true` once the event is set, `false` when cancellation is observed while
still paused.  `none` models observations running out while still blocked
(the real loop would keep polling). -/
def waitIfPausedM : List (Bool × Bool) → Option Bool
  | [] => none
  | (eventSet, cancelFlag) :: rest =>
    if eventSet then some true
    else if cancelFlag then some false
    else waitIfPausedM rest

/-! ## Tree reconstruction (`ScanWorker._build_tree`)

Keys are sorted by `(PurePosixPath(key).parts, key)`; each recorded node is
appended to its parent's child list, synthesizing virtual parent nodes for
missing ancestors (`_create_virtual_parent`).  Child lists are modelled as
a map from a node's key to its ordered child keys (the Python code mutates
`children` lists on the shared node objects).  The later `_sort_children`
cosmetic pass (directories first, case-insensitive name order) is outside
the claims treated here and is not modelled. -/

/-- POSIX segments of a key, as strings. -/
def segsOf (s : String) : List String := (partsOf s.data).map String.mk

/-- Join segments with `/` (Python `"/".join`). -/
def joinSegs : List String → String
  | [] => ""
  | [s] => s
  | s :: rest => s ++ "/" ++ joinSegs rest

/-- Parent key (`ScanWorker._parent_key`): drop the last segment; the root
parent (`PurePosixPath(".")`) becomes `""`.  Agrees with
`PurePosixPath(rel).parent` on the normalized keys the scan records. -/
def parentKey (k : String) : String := joinSegs (segsOf k).dropLast

/-- Strict Python `<` on strings, over the underlying character lists. -/
def strLtB (a b : String) : Bool := lexLt a.data b.data

/-- Python `<=` on strings. -/
def strLeB (a b : String) : Bool := lexLe a.data b.data

/-- Strict lexicographic comparison of string tuples (Python tuple `<` on
tuples of strings). -/
def segsLtB : List String → List String → Bool := listLtB strLtB

/-- Sort order of `_build_tree`'s `ordered_keys`: by the segment tuple
lexicographically, whole key string as tie break
(`key=lambda key: (PurePosixPath(key).parts, key)`). -/
def keyOrder (a b : String) : Prop :=
  segsLtB (segsOf a) (segsOf b) = true ∨ (segsOf a = segsOf b ∧ strLeB a b = true)

instance : DecidableRel keyOrder := fun a b => by
  unfold keyOrder
  infer_instance

/-- Ordering asserted by the specification sentence for the tree pass:
path-segment depth first, then lexicographic order.  Modelled from the
spec: this definition follows the spec's words (for comparison against the
source's `keyOrder`), not the source. -/
def specKeyOrder (a b : String) : Prop :=
  (segsOf a).length < (segsOf b).length ∨
    ((segsOf a).length = (segsOf b).length ∧ strLeB a b = true)

instance : DecidableRel specKeyOrder := fun a b => by
  unfold specKeyOrder
  infer_instance

/-- Membership test of the node dict. -/
def mapHas (nm : List (String × PathNode)) (k : String) : Bool :=
  (nm.find? (fun p => p.1 == k)).isSome

/-- Ancestor chain walk of `_create_virtual_parent`: collect keys from `k`
upward that are missing from the node map, stopping at a present key or at
the root key `""` (fuel: the segment depth bounds the walk on the
normalized keys that occur). -/
def missingChainF : Nat → List (String × PathNode) → String → List String
  | 0, _, _ => []
  | fuel + 1, nm, k =>
    if mapHas nm k || k == "" then [] else k :: missingChainF fuel nm (parentKey k)

/-- Fuel wrapper for the ancestor walk. -/
def missingChain (nm : List (String × PathNode)) (k : String) : List String :=
  missingChainF ((segsOf k).length + 1) nm k

/-- Virtual directory node synthesized for a missing ancestor
(`PathNode(abs_path=self._root_path / missing, rel_path=missing,
type="dir")`). -/
def virtualNode (root rel : String) : PathNode :=
  { abs_path := root ++ "/" ++ rel, rel_path := rel, type := .dir }

/-- Insert the missing ancestors of `k`, topmost first
(`for missing in reversed(missing_paths): nodes[missing] = ...`). -/
def createVirtualAdd (root : String) (nm : List (String × PathNode)) (k : String) :
    List (String × PathNode) :=
  nm ++ ((missingChain nm k).reverse.map fun m => (m, virtualNode root m))

/-- Child list recorded for a key (empty when never appended to). -/
def childrenAt (cm : List (String × List String)) (k : String) : List String :=
  ((cm.find? (fun p => p.1 == k)).map Prod.snd).getD []

/-- Append one child key under a parent key. -/
def childAppend : List (String × List String) → String → String → List (String × List String)
  | [], par, child => [(par, [child])]
  | (k, l) :: rest, par, child =>
    if k = par then (k, l ++ [child]) :: rest else (k, l) :: childAppend rest par child

/-- Attachment loop of `_build_tree`: for each key in sorted order, ensure
the parent exists (synthesizing virtual ancestors) and append the key to
the parent's child list. -/
def buildTreeGo (root : String) :
    List String → List (String × PathNode) → List (String × List String) →
    List (String × PathNode) × List (String × List String)
  | [], nm, cm => (nm, cm)
  | rel :: rest, nm, cm =>
    let par := parentKey rel
    let nm2 := if mapHas nm par then nm else createVirtualAdd root nm par
    buildTreeGo root rest nm2 (childAppend cm par rel)

/-- Sorted key sequence the attachment loop processes. -/
def orderedKeysOf (nm : List (String × PathNode)) : List String :=
  List.insertionSort keyOrder ((nm.map Prod.fst).filter (fun k => k ≠ ""))

/-- Tree reconstruction (`ScanWorker._build_tree`), producing the final
node map (with virtual parents) and the child map. -/
def buildTree (root : String) (nm : List (String × PathNode)) :
    List (String × PathNode) × List (String × List String) :=
  buildTreeGo root (orderedKeysOf nm) nm []

/-- Keys of a node map, in insertion order (`nodes.keys()`). -/
def keysOf (nm : List (String × PathNode)) : List String := nm.map Prod.fst

/-- A good path segment: non-empty, not `.`, and containing no slash —
exactly the pieces `partsOf` produces. -/
def goodSeg (s : String) : Prop :=
  s ≠ "" ∧ s ≠ "." ∧ '/' ∉ s.data

instance (s : String) : Decidable (goodSeg s) := by
  unfold goodSeg
  infer_instance

/-- Normalized non-root key, as the scan records them: at least one
segment, and joining the segments reproduces the key. -/
def normalKey (k : String) : Prop :=
  segsOf k ≠ [] ∧ joinSegs (segsOf k) = k

instance (k : String) : Decidable (normalKey k) := by
  unfold normalKey
  infer_instance

/-- Iterated parent key. -/
def iterParent : Nat → String → String
  | 0, k => k
  | j + 1, k => iterParent j (parentKey k)

/-- Loop invariant of the expansion: the seen set has no duplicates, every
seen variant is a sublist of the original pattern, and the queue only holds
seen variants. -/
structure ExpInv (p : List Char) (variants queue : List (List Char)) : Prop where
  nodup : variants.Nodup
  subl : ∀ v ∈ variants, List.Sublist v p
  qsub : ∀ v ∈ queue, v ∈ variants

/-- Variant list a rule's pattern contributes under the given case flag:
`patterns` when case-sensitive, `patterns_lower` otherwise. -/
def usedVariants (cs : Bool) (p : String) : List (List Char) :=
  if cs then expandPatternsL p.data else expandPatternsL (lowerStr p.data)

/-- Well-formedness of a glob variant: either rooted (then
`PurePosixPath.match` returns `False` for a relative candidate) or with a
non-empty part list; exactly the variants for which `patMatchOne` cannot
raise `ValueError`. -/
def wfVariant (v : List Char) : Prop :=
  v.head? = some '/' ∨ partsOf v ≠ []

instance (v : List Char) : Decidable (wfVariant v) := by
  unfold wfVariant
  infer_instance

/-- Rule `i` matches the candidate parts: the rule exists, its pattern is
non-empty (empty-pattern rules are never prepared), and some expanded
variant in use matches. -/
def RuleMatchesAt (rules : List Rule) (cs : Bool) (parts : List (List Char)) (i : Nat) :
    Prop :=
  ∃ r, rules.get? i = some r ∧ r.pattern ≠ "" ∧
    anyVariantMatches (usedVariants cs r.pattern) parts = .ok true

/-! ## Order lemmas for the sort comparators -/

theorem char_toNat_inj {a b : Char} (h : a.toNat = b.toNat) : a = b := by
  calc a = Char.ofNat a.toNat := (Char.ofNat_toNat a).symm
    _ = Char.ofNat b.toNat := by rw [h]
    _ = b := Char.ofNat_toNat b

theorem charLtB_trichotomy (a b : Char) :
    charLtB a b = true ∨ a = b ∨ charLtB b a = true := by
  rcases Nat.lt_trichotomy a.toNat b.toNat with h | h | h
  · left
    simpa [charLtB]
  · right; left
    exact char_toNat_inj h
  · right; right
    simpa [charLtB]

theorem charLtB_trans {a b c : Char} (h1 : charLtB a b = true)
    (h2 : charLtB b c = true) : charLtB a c = true := by
  simp only [charLtB, decide_eq_true_eq] at h1 h2 ⊢
  omega

theorem listLtB_trichotomy [BEq α] [LawfulBEq α] (ltB : α → α → Bool)
    (htri : ∀ a b : α, ltB a b = true ∨ a = b ∨ ltB b a = true) :
    ∀ l1 l2 : List α, listLtB ltB l1 l2 = true ∨ l1 = l2 ∨ listLtB ltB l2 l1 = true
  | [], [] => by simp [listLtB]
  | [], _ :: _ => by simp [listLtB]
  | _ :: _, [] => by simp [listLtB]
  | x :: xs, y :: ys => by
    rcases htri x y with h | rfl | h
    · left
      simp [listLtB, h]
    · rcases listLtB_trichotomy ltB htri xs ys with h2 | rfl | h2
      · left
        simp [listLtB, h2]
      · right; left
        rfl
      · right; right
        simp [listLtB, h2]
    · right; right
      simp [listLtB, h]

theorem listLtB_trans [BEq α] [LawfulBEq α] (ltB : α → α → Bool)
    (htrans : ∀ {a b c : α}, ltB a b = true → ltB b c = true → ltB a c = true) :
    ∀ {l1 l2 l3 : List α}, listLtB ltB l1 l2 = true → listLtB ltB l2 l3 = true →
      listLtB ltB l1 l3 = true
  | [], [] , _, h1, _ => by simp [listLtB] at h1
  | [], _ :: _, [], _, h2 => by simp [listLtB] at h2
  | [], _ :: _, _ :: _, _, _ => by simp [listLtB]
  | _ :: _, [], _, h1, _ => by simp [listLtB] at h1
  | _ :: _, _ :: _, [], _, h2 => by simp [listLtB] at h2
  | x :: xs, y :: ys, z :: zs, h1, h2 => by
    simp only [listLtB, Bool.or_eq_true, Bool.and_eq_true, beq_iff_eq] at h1 h2 ⊢
    rcases h1 with h1 | ⟨rfl, h1⟩
    · rcases h2 with h2 | ⟨rfl, h2⟩
      · exact Or.inl (htrans h1 h2)
      · exact Or.inl h1
    · rcases h2 with h2 | ⟨rfl, h2⟩
      · exact Or.inl h2
      · exact Or.inr ⟨rfl, listLtB_trans ltB @htrans h1 h2⟩

theorem lexLt_trichotomy (a b : List Char) :
    lexLt a b = true ∨ a = b ∨ lexLt b a = true :=
  listLtB_trichotomy charLtB charLtB_trichotomy a b

theorem lexLt_trans {a b c : List Char} (h1 : lexLt a b = true)
    (h2 : lexLt b c = true) : lexLt a c = true :=
  listLtB_trans charLtB (fun hab hbc => charLtB_trans hab hbc) h1 h2

theorem lexLe_trans {a b c : List Char} (h1 : lexLe a b = true)
    (h2 : lexLe b c = true) : lexLe a c = true := by
  simp only [lexLe, Bool.or_eq_true, beq_iff_eq] at h1 h2 ⊢
  rcases h1 with h1 | rfl
  · rcases h2 with h2 | rfl
    · exact Or.inl (lexLt_trans h1 h2)
    · exact Or.inl h1
  · exact h2

theorem lexLe_total (a b : List Char) : lexLe a b = true ∨ lexLe b a = true := by
  simp only [lexLe, Bool.or_eq_true, beq_iff_eq]
  rcases lexLt_trichotomy a b with h | rfl | h
  · exact Or.inl (Or.inl h)
  · exact Or.inl (Or.inr rfl)
  · exact Or.inr (Or.inl h)

instance : IsTrans (List Char) varKeyLE where
  trans a b c h1 h2 := by
    rcases h1 with h1 | ⟨e1, h1⟩ <;> rcases h2 with h2 | ⟨e2, h2⟩
    · exact Or.inl (by omega)
    · exact Or.inl (by omega)
    · exact Or.inl (by omega)
    · exact Or.inr ⟨by omega, lexLe_trans h1 h2⟩

instance : IsTotal (List Char) varKeyLE where
  total a b := by
    rcases Nat.lt_trichotomy a.length b.length with h | h | h
    · exact Or.inr (Or.inl h)
    · rcases lexLe_total a b with hl | hl
      · exact Or.inl (Or.inr ⟨h, hl⟩)
      · exact Or.inr (Or.inr ⟨h.symm, hl⟩)
    · exact Or.inl (Or.inl h)

theorem string_data_inj {a b : String} (h : a.data = b.data) : a = b := by
  cases a
  cases b
  exact congrArg String.mk h

theorem strLtB_trichotomy (a b : String) :
    strLtB a b = true ∨ a = b ∨ strLtB b a = true := by
  rcases lexLt_trichotomy a.data b.data with h | h | h
  · exact Or.inl h
  · exact Or.inr (Or.inl (string_data_inj h))
  · exact Or.inr (Or.inr h)

theorem strLtB_trans {a b c : String} (h1 : strLtB a b = true)
    (h2 : strLtB b c = true) : strLtB a c = true :=
  lexLt_trans h1 h2

theorem strLeB_trans {a b c : String} (h1 : strLeB a b = true)
    (h2 : strLeB b c = true) : strLeB a c = true := by
  simp only [strLeB, lexLe, Bool.or_eq_true, beq_iff_eq] at h1 h2 ⊢
  rcases h1 with h1 | h1
  · rcases h2 with h2 | h2
    · exact Or.inl (lexLt_trans h1 h2)
    · exact Or.inl (h2 ▸ h1)
  · rcases h2 with h2 | h2
    · exact Or.inl (string_data_inj h1 ▸ h2)
    · exact Or.inr (h1.trans h2)

theorem strLeB_total (a b : String) : strLeB a b = true ∨ strLeB b a = true := by
  simp only [strLeB]
  exact lexLe_total a.data b.data

theorem segsLtB_trichotomy (a b : List String) :
    segsLtB a b = true ∨ a = b ∨ segsLtB b a = true :=
  listLtB_trichotomy strLtB strLtB_trichotomy a b

theorem segsLtB_trans {a b c : List String} (h1 : segsLtB a b = true)
    (h2 : segsLtB b c = true) : segsLtB a c = true :=
  listLtB_trans strLtB (fun hab hbc => strLtB_trans hab hbc) h1 h2

instance : IsTrans String keyOrder where
  trans a b c h1 h2 := by
    rcases h1 with h1 | ⟨e1, h1⟩ <;> rcases h2 with h2 | ⟨e2, h2⟩
    · exact Or.inl (segsLtB_trans h1 h2)
    · exact Or.inl (e2 ▸ h1)
    · exact Or.inl (e1 ▸ h2)
    · exact Or.inr ⟨e1.trans e2, strLeB_trans h1 h2⟩

instance : IsTotal String keyOrder where
  total a b := by
    rcases segsLtB_trichotomy (segsOf a) (segsOf b) with h | h | h
    · exact Or.inl (Or.inl h)
    · rcases strLeB_total a b with hl | hl
      · exact Or.inl (Or.inr ⟨h, hl⟩)
      · exact Or.inr (Or.inr ⟨h.symm, hl⟩)
    · exact Or.inr (Or.inl h)

/-! ## Pattern-expansion lemmas: the work-queue loop terminates and its
result is a deduplicated, sorted variant list -/

theorem removeAt_sublist (i len : Nat) (c : List Char) :
    List.Sublist (removeAt i len c) c := by
  unfold removeAt
  have h1 : List.Sublist (c.drop (i + len)) (c.drop i) := by
    have h2 := List.drop_sublist len (c.drop i)
    rwa [List.drop_drop] at h2
  have h4 : List.Sublist (c.take i ++ c.drop (i + len)) (c.take i ++ c.drop i) :=
    List.Sublist.append_left h1 _
  rwa [List.take_append_drop] at h4

theorem mem_findOccs {tok s : List Char} {i : Nat} :
    i ∈ findOccs tok s ↔ i < s.length ∧ tok.isPrefixOf (s.drop i) = true := by
  simp [findOccs, List.mem_filter, List.mem_range]

theorem childrenOf_spec {c v : List Char} :
    v ∈ childrenOf c ↔
      ∃ tok ∈ expTokens, ∃ i ∈ findOccs tok c, v = removeAt i tok.length c := by
  simp only [childrenOf, List.mem_flatten, List.mem_map]
  constructor
  · rintro ⟨l, ⟨tok, htok, rfl⟩, hv⟩
    rcases List.mem_map.mp hv with ⟨i, hi, rfl⟩
    exact ⟨tok, htok, i, hi, rfl⟩
  · rintro ⟨tok, htok, i, hi, rfl⟩
    exact ⟨(findOccs tok c).map (fun i => removeAt i tok.length c), ⟨tok, htok, rfl⟩,
      List.mem_map.mpr ⟨i, hi, rfl⟩⟩

theorem expTokens_length {tok : List Char} (h : tok ∈ expTokens) : 2 ≤ tok.length := by
  simp only [expTokens, List.mem_cons, List.not_mem_nil, or_false] at h
  rcases h with rfl | rfl | rfl <;> decide

theorem childrenOf_sublist {c v : List Char} (h : v ∈ childrenOf c) :
    List.Sublist v c := by
  rcases childrenOf_spec.mp h with ⟨tok, _, i, _, rfl⟩
  exact removeAt_sublist i tok.length c

theorem childrenOf_length_lt {c v : List Char} (h : v ∈ childrenOf c) :
    v.length < c.length := by
  rcases childrenOf_spec.mp h with ⟨tok, htok, i, hi, rfl⟩
  rcases mem_findOccs.mp hi with ⟨hlt, hpre⟩
  have hl2 : 2 ≤ tok.length := expTokens_length htok
  have hlen : tok.length ≤ (c.drop i).length :=
    (List.isPrefixOf_iff_prefix.mp hpre).length_le
  rw [List.length_drop] at hlen
  unfold removeAt
  rw [List.length_append, List.length_take, List.length_drop]
  omega

theorem nodup_sublists_length_le {p : List Char} {l : List (List Char)}
    (h : l.Nodup) (hs : ∀ x ∈ l, List.Sublist x p) : l.length ≤ 2 ^ p.length := by
  have h1 : l.toFinset.card = l.length := List.toFinset_card_of_nodup h
  have h2 : l.toFinset ⊆ (p.sublists).toFinset := by
    intro x hx
    simp only [List.mem_toFinset] at hx ⊢
    exact List.mem_sublists.mpr (hs x hx)
  calc l.length = l.toFinset.card := h1.symm
    _ ≤ (p.sublists).toFinset.card := Finset.card_le_card h2
    _ ≤ (p.sublists).length := List.toFinset_card_le _
    _ = 2 ^ p.length := List.length_sublists p

theorem enqueueAll_spec (p c0 : List Char) :
    ∀ (cands variants queue : List (List Char)), ExpInv p variants queue →
      (∀ x ∈ cands, List.Sublist x c0) → List.Sublist c0 p →
      ∃ k, ExpInv p (enqueueAll cands variants queue).1 (enqueueAll cands variants queue).2 ∧
        (enqueueAll cands variants queue).1.length = variants.length + k ∧
        (enqueueAll cands variants queue).2.length = queue.length + k
  | [], variants, queue, hinv, _, _ => ⟨0, by simpa [enqueueAll] using hinv⟩
  | c :: rest, variants, queue, hinv, hcands, hc0 => by
    by_cases hcond : c ≠ [] ∧ c ∉ variants
    · have henq : enqueueAll (c :: rest) variants queue =
          enqueueAll rest (variants ++ [c]) (c :: queue) := by
        simp only [enqueueAll]
        rw [if_pos hcond]
      have hinv2 : ExpInv p (variants ++ [c]) (c :: queue) := by
        refine ⟨?_, ?_, ?_⟩
        · simpa [List.nodup_append] using ⟨hinv.nodup, hcond.2⟩
        · intro v hv
          rcases List.mem_append.mp hv with hv | hv
          · exact hinv.subl v hv
          · have hvc := List.mem_singleton.mp hv
            subst hvc
            exact (hcands _ (List.mem_cons_self _ _)).trans hc0
        · intro v hv
          rcases List.mem_cons.mp hv with hvc | hv
          · subst hvc
            exact List.mem_append.mpr (Or.inr (List.mem_singleton.mpr rfl))
          · exact List.mem_append.mpr (Or.inl (hinv.qsub v hv))
      have hrest : ∀ x ∈ rest, List.Sublist x c0 :=
        fun x hx => hcands x (List.mem_cons_of_mem c hx)
      rcases enqueueAll_spec p c0 rest (variants ++ [c]) (c :: queue) hinv2 hrest hc0 with
        ⟨k, hinv3, hlv, hlq⟩
      refine ⟨k + 1, ?_, ?_, ?_⟩
      · rw [henq]
        exact hinv3
      · rw [henq, hlv]
        simp only [List.length_append, List.length_cons, List.length_nil]
        omega
      · rw [henq, hlq]
        simp only [List.length_cons]
        omega
    · have henq : enqueueAll (c :: rest) variants queue = enqueueAll rest variants queue := by
        simp only [enqueueAll]
        rw [if_neg hcond]
      have hrest : ∀ x ∈ rest, List.Sublist x c0 :=
        fun x hx => hcands x (List.mem_cons_of_mem c hx)
      rcases enqueueAll_spec p c0 rest variants queue hinv hrest hc0 with ⟨k, hinv3, hlv, hlq⟩
      rw [henq]
      exact ⟨k, hinv3, hlv, hlq⟩

theorem expandAux_total (p : List Char) :
    ∀ (fuel : Nat) (variants queue : List (List Char)), ExpInv p variants queue →
      queue.length + 2 * (2 ^ p.length - variants.length) ≤ fuel →
      ∃ out, expandAux fuel variants queue = some out := by
  intro fuel
  induction fuel with
  | zero =>
    intro variants queue hinv hm
    cases queue with
    | nil => exact ⟨_, rfl⟩
    | cons c q =>
      simp only [List.length_cons] at hm
      omega
  | succ f ih =>
    intro variants queue hinv hm
    cases queue with
    | nil => exact ⟨_, rfl⟩
    | cons c q =>
      have hc : c ∈ variants := hinv.qsub c (List.mem_cons_self c q)
      have hc0 : List.Sublist c p := hinv.subl c hc
      have hinvq : ExpInv p variants q :=
        ⟨hinv.nodup, hinv.subl, fun v hv => hinv.qsub v (List.mem_cons_of_mem c hv)⟩
      have hch : ∀ x ∈ childrenOf c, List.Sublist x c := fun x hx => childrenOf_sublist hx
      rcases enqueueAll_spec p c (childrenOf c) variants q hinvq hch hc0 with
        ⟨k, hinv3, hlv, hlq⟩
      have hbound : (enqueueAll (childrenOf c) variants q).1.length ≤ 2 ^ p.length :=
        nodup_sublists_length_le hinv3.nodup hinv3.subl
      have hm2 : (enqueueAll (childrenOf c) variants q).2.length +
          2 * (2 ^ p.length - (enqueueAll (childrenOf c) variants q).1.length) ≤ f := by
        rw [hlv, hlq]
        rw [hlv] at hbound
        simp only [List.length_cons] at hm
        omega
      rcases ih _ _ hinv3 hm2 with ⟨out, hout⟩
      exact ⟨out, by simpa [expandAux] using hout⟩

theorem expandAux_sorted_nodup (p : List Char) :
    ∀ (fuel : Nat) (variants queue out : _), ExpInv p variants queue →
      expandAux fuel variants queue = some out →
      out.Pairwise varKeyLE ∧ out.Nodup := by
  intro fuel
  induction fuel with
  | zero =>
    intro variants queue out hinv hout
    cases queue with
    | nil =>
      have heq : out = List.insertionSort varKeyLE variants := by
        simpa [expandAux] using hout.symm
      subst heq
      exact ⟨List.sorted_insertionSort varKeyLE variants,
        ((List.perm_insertionSort varKeyLE variants).nodup_iff).mpr hinv.nodup⟩
    | cons c q => simp [expandAux] at hout
  | succ f ih =>
    intro variants queue out hinv hout
    cases queue with
    | nil =>
      have heq : out = List.insertionSort varKeyLE variants := by
        simpa [expandAux] using hout.symm
      subst heq
      exact ⟨List.sorted_insertionSort varKeyLE variants,
        ((List.perm_insertionSort varKeyLE variants).nodup_iff).mpr hinv.nodup⟩
    | cons c q =>
      have hc : c ∈ variants := hinv.qsub c (List.mem_cons_self c q)
      have hc0 : List.Sublist c p := hinv.subl c hc
      have hinvq : ExpInv p variants q :=
        ⟨hinv.nodup, hinv.subl, fun v hv => hinv.qsub v (List.mem_cons_of_mem c hv)⟩
      have hch : ∀ x ∈ childrenOf c, List.Sublist x c := fun x hx => childrenOf_sublist hx
      rcases enqueueAll_spec p c (childrenOf c) variants q hinvq hch hc0 with
        ⟨k, hinv3, _, _⟩
      have hout2 : expandAux f (enqueueAll (childrenOf c) variants q).1
          (enqueueAll (childrenOf c) variants q).2 = some out := by
        simpa [expandAux] using hout
      exact ih _ _ _ hinv3 hout2

theorem expInv_init (p : List Char) : ExpInv p [p] [p] :=
  ⟨List.nodup_singleton p, fun v hv => by
      have h := List.mem_singleton.mp hv
      subst h
      exact List.Sublist.refl _,
    fun v hv => hv⟩

theorem expandPatternsL_total (p : List Char) :
    ∃ out, expandAux (expandFuel p) [p] [p] = some out := by
  apply expandAux_total p (expandFuel p) [p] [p] (expInv_init p)
  have h1 : 1 ≤ 2 ^ p.length := Nat.one_le_two_pow
  simp only [List.length_singleton, expandFuel]
  omega

theorem expandPatternsL_sorted_nodup (p : List Char) :
    (expandPatternsL p).Pairwise varKeyLE ∧ (expandPatternsL p).Nodup := by
  rcases expandPatternsL_total p with ⟨out, hout⟩
  have h := expandAux_sorted_nodup p (expandFuel p) [p] [p] out (expInv_init p) hout
  unfold expandPatternsL
  rw [hout]
  exact h

theorem findOccs_nil_of_no_starstar {p : List Char} (h : findOccs "**".data p = []) :
    ∀ tok ∈ expTokens, findOccs tok p = [] := by
  have hnot : ∀ i, i ∈ findOccs "**".data p → False := by
    intro i hi
    rw [h] at hi
    exact List.not_mem_nil i hi
  intro tok htok
  simp only [expTokens, List.mem_cons, List.not_mem_nil, or_false] at htok
  rcases htok with rfl | rfl | rfl
  · rw [List.eq_nil_iff_forall_not_mem]
    intro i hi
    rcases mem_findOccs.mp hi with ⟨hlt, hpre⟩
    refine hnot i (mem_findOccs.mpr ⟨hlt, ?_⟩)
    refine List.isPrefixOf_iff_prefix.mpr ?_
    refine List.IsPrefix.trans ?_ (List.isPrefixOf_iff_prefix.mp hpre)
    exact ⟨['/'], rfl⟩
  · rw [List.eq_nil_iff_forall_not_mem]
    intro i hi
    rcases mem_findOccs.mp hi with ⟨hlt, hpre⟩
    rcases List.isPrefixOf_iff_prefix.mp hpre with ⟨t, ht⟩
    have hdrop : p.drop (i + 1) = '*' :: '*' :: t := by
      have h1 : p.drop (i + 1) = (p.drop i).drop 1 := by
        rw [List.drop_drop]
      rw [h1, ← ht]
      rfl
    have hlen : (p.drop i).length = p.length - i := List.length_drop i p
    have hlen2 : (p.drop i).length = 3 + t.length := by
      rw [← ht]
      simp
      omega
    refine hnot (i + 1) (mem_findOccs.mpr ⟨by omega, ?_⟩)
    rw [hdrop]
    refine List.isPrefixOf_iff_prefix.mpr ⟨t, rfl⟩
  · exact h

theorem childrenOf_nil_of_no_starstar {p : List Char} (h : findOccs "**".data p = []) :
    childrenOf p = [] := by
  have h1 := findOccs_nil_of_no_starstar h "**/".data (by simp [expTokens])
  have h2 := findOccs_nil_of_no_starstar h "/**".data (by simp [expTokens])
  simp [childrenOf, expTokens, h1, h2, h]

theorem expandPatternsL_no_starstar {p : List Char} (h : findOccs "**".data p = []) :
    expandPatternsL p = [p] := by
  have hch : childrenOf p = [] := childrenOf_nil_of_no_starstar h
  unfold expandPatternsL expandFuel
  have hstep : expandAux (2 * 2 ^ p.length + 1) [p] [p] =
      expandAux (2 * 2 ^ p.length) [p] [] := by
    simp [expandAux, hch, enqueueAll]
  rw [hstep]
  simp [expandAux, List.insertionSort]

theorem string_mk_injective : Function.Injective String.mk := by
  intro a b h
  have hd : (String.mk a).data = (String.mk b).data := congrArg String.data h
  exact hd

theorem enqueueAll_queue_mem :
    ∀ (cands variants queue : List (List Char)) (v : List Char),
      v ∈ (enqueueAll cands variants queue).2 →
      v ∈ queue ∨ (v ∈ cands ∧ v ∉ variants)
  | [], _, _, _, hv => Or.inl hv
  | c :: rest, variants, queue, v, hv => by
    by_cases hcond : c ≠ [] ∧ c ∉ variants
    · have henq : enqueueAll (c :: rest) variants queue =
          enqueueAll rest (variants ++ [c]) (c :: queue) := by
        simp only [enqueueAll]
        rw [if_pos hcond]
      rw [henq] at hv
      rcases enqueueAll_queue_mem rest (variants ++ [c]) (c :: queue) v hv with hq | ⟨hc, hnv⟩
      · rcases List.mem_cons.mp hq with hvc | hq
        · subst hvc
          exact Or.inr ⟨List.mem_cons_self _ _, hcond.2⟩
        · exact Or.inl hq
      · refine Or.inr ⟨List.mem_cons_of_mem c hc, fun hmem => ?_⟩
        exact hnv (List.mem_append.mpr (Or.inl hmem))
    · have henq : enqueueAll (c :: rest) variants queue = enqueueAll rest variants queue := by
        simp only [enqueueAll]
        rw [if_neg hcond]
      rw [henq] at hv
      rcases enqueueAll_queue_mem rest variants queue v hv with hq | ⟨hc, hnv⟩
      · exact Or.inl hq
      · exact Or.inr ⟨List.mem_cons_of_mem c hc, hnv⟩

/-! ## Claim C8 -/

/-- C8: pattern expansion is idempotent on already-expanded inputs — for a
pattern with no `**` occurrence the result is exactly the singleton of the
input — and for every pattern the returned variants are deduplicated and
sorted longest string first with lexicographic tiebreak. -/
theorem C8_expansion_idempotent_sorted (p : String) :
    (findOccs "**".data p.data = [] → expandPatterns p = [p]) ∧
    (expandPatterns p).Nodup ∧
    (expandPatterns p).Pairwise (fun a b => varKeyLE a.data b.data) := by
  refine ⟨?_, ?_, ?_⟩
  · intro h
    unfold expandPatterns
    rw [expandPatternsL_no_starstar h]
    rfl
  · exact (expandPatternsL_sorted_nodup p.data).2.map string_mk_injective
  · refine (List.pairwise_map).mpr ?_
    exact (expandPatternsL_sorted_nodup p.data).1

/-- Witness for C8 at the concrete expanded pattern `*.tmp`. -/
theorem C8_expansion_idempotent_sorted_witness :
    findOccs "**".data "*.tmp".data = [] ∧ expandPatterns "*.tmp" = ["*.tmp"] :=
  ⟨by decide, (C8_expansion_idempotent_sorted "*.tmp").1 (by decide)⟩

/-! ## Claim C9 -/

/-- C9: the pattern-expansion work-queue loop terminates for every input
pattern — the explicit fuel `expandFuel` (twice the sublist count plus one)
is always sufficient — and structurally: every enqueued variant is strictly
shorter than the variant it was derived from, and only variants not yet
seen are ever enqueued. -/
theorem C9_expansion_terminates :
    (∀ p : String, ∃ out, expandAux (expandFuel p.data) [p.data] [p.data] = some out) ∧
    (∀ c v : List Char, v ∈ childrenOf c → v.length < c.length) ∧
    (∀ (cands variants queue : List (List Char)) (v : List Char),
      v ∈ (enqueueAll cands variants queue).2 →
      v ∈ queue ∨ (v ∈ cands ∧ v ∉ variants)) := by
  refine ⟨?_, ?_, ?_⟩
  · intro p
    exact expandPatternsL_total p.data
  · intro c v hv
    exact childrenOf_length_lt hv
  · exact enqueueAll_queue_mem

/-- Witness for C9 at the concrete pattern `**/cache/**`. -/
theorem C9_expansion_terminates_witness :
    ∃ out, expandAux (expandFuel "**/cache/**".data)
      ["**/cache/**".data] ["**/cache/**".data] = some out :=
  C9_expansion_terminates.1 "**/cache/**"

/-! ## Claim C2 -/

/-- C2 (bug evidence at the failing input): with an empty-pattern rule at
index 0 ahead of rule `- *.tmp` at index 1, the engine prepares exactly the
one non-empty-pattern rule and keeps its original index 1, and
`matching_rule_indexes` reports the original index 1 for path `file.tmp` —
but `match_path`, which the claim says still returns a `MatchDecision`,
fails instead: `self._prepared[first]` looks the prepared list up
positionally with the original index 1, which is out of bounds for the
one-element prepared list (an uncaught IndexError, modelled as `none`). -/
theorem C2_empty_pattern_rule_crash :
    (mkEngine [{ action := "-", pattern := "", lineno := 1 },
      { action := "-", pattern := "*.tmp", lineno := 2 }]).prepared.length = 1 ∧
    (∀ pr ∈ (mkEngine [{ action := "-", pattern := "", lineno := 1 },
      { action := "-", pattern := "*.tmp", lineno := 2 }]).prepared, pr.index = 1) ∧
    (mkEngine [{ action := "-", pattern := "", lineno := 1 },
      { action := "-", pattern := "*.tmp", lineno := 2 }]).matching_rule_indexes "file.tmp" =
      .ok [1] ∧
    (mkEngine [{ action := "-", pattern := "", lineno := 1 },
      { action := "-", pattern := "*.tmp", lineno := 2 }]).match_path "file.tmp" = none := by
  decide

/-! ## Claim C1 counterexample -/

/-- C1 counterexample: the claim quantifies over every rule list and every
path, but with an empty-pattern rule at index 0 and rule `- *` at index 1,
rule 1 matches path `a` (so `matching_rule_indexes` returns `[1]` and the
claim demands a matched decision with rule index 1), yet `match_path`
raises instead of returning (`none`); a second exception route: a rule
whose pattern is `.` makes `PurePosixPath.match` raise `ValueError`, so
`match_path` returns no decision for any path. -/
theorem C1_counterexample :
    (mkEngine [{ action := "-", pattern := "", lineno := 1 },
      { action := "-", pattern := "*", lineno := 2 }]).matching_rule_indexes "a" = .ok [1] ∧
    (mkEngine [{ action := "-", pattern := "", lineno := 1 },
      { action := "-", pattern := "*", lineno := 2 }]).match_path "a" = none ∧
    (mkEngine [{ action := "-", pattern := ".", lineno := 1 }]).match_path "a" = none := by
  decide

/-! ## Lowercasing lemmas and claim C3 -/

theorem char_toNat_ofNat {n : Nat} (h : n.isValidChar) : (Char.ofNat n).toNat = n := by
  unfold Char.ofNat
  rw [dif_pos h]
  unfold Char.ofNatAux Char.toNat
  simp [UInt32.toNat, BitVec.toNat_ofNatLt]

theorem lowerChar_idem (c : Char) : lowerChar (lowerChar c) = lowerChar c := by
  unfold lowerChar
  by_cases h : 'A' ≤ c ∧ c ≤ 'Z'
  · rw [if_pos h]
    have h1 : 65 ≤ c.toNat := h.1
    have h2 : c.toNat ≤ 90 := h.2
    have hv : (c.toNat + 32).isValidChar := by
      left
      omega
    have ht : (Char.ofNat (c.toNat + 32)).toNat = c.toNat + 32 := char_toNat_ofNat hv
    rw [if_neg]
    intro hcon
    have h3 : (Char.ofNat (c.toNat + 32)).toNat ≤ 90 := hcon.2
    omega
  · rw [if_neg h, if_neg h]

theorem lowerStr_idem (s : List Char) : lowerStr (lowerStr s) = lowerStr s := by
  unfold lowerStr
  rw [List.map_map]
  exact List.map_congr_left fun c _ => lowerChar_idem c

theorem lowerChar_slash (c : Char) : (lowerChar c == '/') = (c == '/') := by
  unfold lowerChar
  by_cases h : 'A' ≤ c ∧ c ≤ 'Z'
  · rw [if_pos h]
    have h1 : 65 ≤ c.toNat := h.1
    have h2 : c.toNat ≤ 90 := h.2
    have hv : (c.toNat + 32).isValidChar := by
      left
      omega
    have ht : (Char.ofNat (c.toNat + 32)).toNat = c.toNat + 32 := char_toNat_ofNat hv
    have hs : ('/' : Char).toNat = 47 := by decide
    have hne1 : (Char.ofNat (c.toNat + 32)) ≠ '/' := by
      intro hcon
      have h3 := congrArg Char.toNat hcon
      rw [ht, hs] at h3
      omega
    have hne2 : c ≠ '/' := by
      intro hcon
      have h3 := congrArg Char.toNat hcon
      rw [hs] at h3
      omega
    rw [beq_eq_false_iff_ne.mpr hne1, beq_eq_false_iff_ne.mpr hne2]
  · rw [if_neg h]

theorem lstripP_map {p : Char → Bool} {f : Char → Char}
    (hp : ∀ c, p (f c) = p c) :
    ∀ s : List Char, lstripP p (s.map f) = (lstripP p s).map f
  | [] => rfl
  | c :: rest => by
    simp only [List.map_cons, lstripP, hp c]
    by_cases hc : p c = true
    · simp only [hc, if_true]
      exact lstripP_map hp rest
    · simp [hc]

theorem rstripP_map {p : Char → Bool} {f : Char → Char}
    (hp : ∀ c, p (f c) = p c) (s : List Char) :
    rstripP p (s.map f) = (rstripP p s).map f := by
  unfold rstripP
  rw [← List.map_reverse, lstripP_map hp, List.map_reverse]

theorem stripP_map {p : Char → Bool} {f : Char → Char}
    (hp : ∀ c, p (f c) = p c) (s : List Char) :
    stripP p (s.map f) = (stripP p s).map f := by
  unfold stripP
  rw [lstripP_map hp, rstripP_map hp]

theorem lowerStr_isEmpty (s : List Char) : (lowerStr s).isEmpty = s.isEmpty := by
  cases s <;> rfl

theorem candidateOf_lower (path : String) :
    candidateOf (String.mk (lowerStr path.data)) = lowerStr (candidateOf path) := by
  unfold candidateOf
  show (let normalized := stripP (fun c => c == '/') (lowerStr path.data)
    if normalized.isEmpty then ['.'] else normalized) = _
  have hcomm : stripP (fun c => c == '/') (lowerStr path.data) =
      lowerStr (stripP (fun c => c == '/') path.data) :=
    stripP_map lowerChar_slash path.data
  simp only [hcomm, lowerStr_isEmpty]
  by_cases h : (stripP (fun c => c == '/') path.data).isEmpty
  · simp only [h, if_true]
    decide
  · simp [h]

theorem prepareCandidate_lower (path : String) :
    (prepareCandidate (String.mk (lowerStr path.data))).2 = (prepareCandidate path).2 := by
  unfold prepareCandidate
  rw [candidateOf_lower, lowerStr_idem]

theorem testParts_lower (rules : List Rule) (path : String) :
    (mkEngine rules).testParts (String.mk (lowerStr path.data)) =
      (mkEngine rules).testParts path := by
  unfold MatchEngine.testParts
  show (if (mkEngine rules).case_sensitive then _ else _) = _
  have hcs : (mkEngine rules).case_sensitive = false := rfl
  rw [hcs]
  simp only [if_false, Bool.false_eq_true]
  exact prepareCandidate_lower path

theorem lowerRule_pattern_ne {r : Rule} : ((lowerRule r).pattern ≠ "") ↔ (r.pattern ≠ "") := by
  unfold lowerRule
  constructor
  · intro h hcon
    refine h ?_
    rw [hcon]
    rfl
  · intro h hcon
    refine h ?_
    have hd := congrArg String.data hcon
    have hd2 : lowerStr r.pattern.data = [] := hd
    have hlen := congrArg List.length hd2
    simp only [lowerStr, List.length_map, List.length_nil] at hlen
    exact string_data_inj (List.length_eq_zero.mp hlen)

theorem prepAux_lower (n : Nat) :
    ∀ rules : List Rule, prepAux n (rules.map lowerRule) = (prepAux n rules).map lowerPrep := by
  intro rules
  induction rules generalizing n with
  | nil => rfl
  | cons r rest ih =>
    simp only [List.map_cons, prepAux, List.map_append]
    rw [ih (n + 1)]
    by_cases h : r.pattern ≠ ""
    · rw [if_pos (lowerRule_pattern_ne.mpr h), if_pos h]
      simp only [List.map_cons, List.map_nil]
      have hpat : (lowerRule r).pattern.data = lowerStr r.pattern.data := rfl
      have hplow : lowerStr ((lowerRule r).pattern.data) = lowerStr r.pattern.data := by
        rw [hpat, lowerStr_idem]
      simp only [lowerPrep, lowerRule, hpat, hplow, lowerStr_idem]
    · rw [if_neg (fun hcon => h (lowerRule_pattern_ne.mp hcon)), if_neg h]
      simp

theorem matchingAux_lowerPrep (parts : List (List Char)) :
    ∀ (prepared : List PreparedRule) (acc : List Nat),
      matchingAux false parts (prepared.map lowerPrep) acc =
        matchingAux false parts prepared acc
  | [], _ => rfl
  | pr :: rest, acc => by
    simp only [List.map_cons, matchingAux]
    have hpat : prPatterns false (lowerPrep pr) = prPatterns false pr := rfl
    rw [hpat]
    cases anyVariantMatches (prPatterns false pr) parts with
    | error e => rfl
    | ok b =>
      cases b with
      | true =>
        show matchingAux false parts (rest.map lowerPrep) (acc ++ [(lowerPrep pr).index]) = _
        have hidx : (lowerPrep pr).index = pr.index := rfl
        rw [hidx]
        exact matchingAux_lowerPrep parts rest (acc ++ [pr.index])
      | false => exact matchingAux_lowerPrep parts rest acc

/-- C3: with case sensitivity disabled (the constructor default) matching
is case-insensitive — the default engine cannot distinguish a path from its
lowercased form, and lowercasing every rule pattern leaves the matched flag
and rule index of every decision unchanged — and in particular the single
rule `- **/junk.txt` (as parsed from a filter file) matches the path
`Foo/JUNK.TXT` under the default engine. -/
theorem C3_default_engine_case_insensitive (rules : List Rule) (path : String) :
    (mkEngine rules).match_path (String.mk (lowerStr path.data)) =
      (mkEngine rules).match_path path ∧
    ((mkEngine (rules.map lowerRule)).match_path path).map
        (fun d => (d.matched, d.rule_index)) =
      ((mkEngine rules).match_path path).map (fun d => (d.matched, d.rule_index)) ∧
    (mkEngine (parse_filter_file "- **/junk.txt")).match_path "Foo/JUNK.TXT" =
      some { matched := true
             rule_index := some 0
             rule := some { action := "-", pattern := "**/junk.txt", lineno := 1 } } := by
  refine ⟨?_, ?_, by decide⟩
  · unfold MatchEngine.match_path MatchEngine.matching_rule_indexes
    rw [testParts_lower]
  · unfold MatchEngine.match_path MatchEngine.matching_rule_indexes
    have hprep : (mkEngine (rules.map lowerRule)).prepared =
        (mkEngine rules).prepared.map lowerPrep := prepAux_lower 0 rules
    have htest : (mkEngine (rules.map lowerRule)).testParts path =
        (mkEngine rules).testParts path := rfl
    have hcs : (mkEngine (rules.map lowerRule)).case_sensitive = false := rfl
    rw [hprep, htest, hcs]
    have hcs2 : (mkEngine rules).case_sensitive = false := rfl
    rw [hcs2]
    rw [matchingAux_lowerPrep ((mkEngine rules).testParts path) (mkEngine rules).prepared []]
    cases hm : matchingAux false ((mkEngine rules).testParts path) (mkEngine rules).prepared []
      with
    | error e => rfl
    | ok l =>
      cases l with
      | nil => rfl
      | cons first rest =>
        dsimp only
        rw [List.get?_map]
        cases (mkEngine rules).prepared.get? first with
        | none => rfl
        | some pr => rfl

/-! ## Parser lemmas and claim C4 -/

theorem parse_rule_line_action (line : List Char) :
    (parse_rule_line line).1 = none ∨ (parse_rule_line line).1 = some "+" ∨
    (parse_rule_line line).1 = some "-" ∨ (parse_rule_line line).1 = some "!" := by
  cases line with
  | nil => exact Or.inl rfl
  | cons c rest =>
    by_cases h1 : c = '+'
    · subst h1
      right; left
      simp [parse_rule_line]
    · by_cases h2 : c = '-'
      · subst h2
        right; right; left
        simp [parse_rule_line]
      · by_cases h3 : c = '!'
        · subst h3
          right; right; right
          simp [parse_rule_line]
        · left
          have e1 : (c == '+') = false := beq_eq_false_iff_ne.mpr h1
          have e2 : (c == '-') = false := beq_eq_false_iff_ne.mpr h2
          have e3 : (c == '!') = false := beq_eq_false_iff_ne.mpr h3
          simp [parse_rule_line, e1, e2, e3]

theorem parseLines_bound :
    ∀ (lines : List (List Char)) (lineno : Nat) (pl pc : Option String),
      ∀ r ∈ parseLines lineno pl pc lines,
        (r.action = "-" ∨ r.action = "!") ∧ lineno ≤ r.lineno := by
  intro lines
  induction lines with
  | nil =>
    intro lineno pl pc r hr
    simp [parseLines] at hr
  | cons raw rest ih =>
    intro lineno pl pc r hr
    simp only [parseLines] at hr
    by_cases h1 : (stripWs raw).isEmpty
    · rw [if_pos h1] at hr
      rcases ih (lineno + 1) none none r hr with ⟨ha, hl⟩
      exact ⟨ha, by omega⟩
    · rw [if_neg h1] at hr
      by_cases h2 : ((stripWs raw).head? == some '#') = true
      · rw [if_pos h2] at hr
        cases hmeta : parseMetadataComment (stripWs raw) with
        | none =>
          rw [hmeta] at hr
          rcases ih (lineno + 1) pl pc r hr with ⟨ha, hl⟩
          exact ⟨ha, by omega⟩
        | some kv =>
          rcases kv with ⟨k, v⟩
          rw [hmeta] at hr
          dsimp only at hr
          by_cases hk : k = "label"
          · rw [if_pos hk] at hr
            rcases ih (lineno + 1) (some v) pc r hr with ⟨ha, hl⟩
            exact ⟨ha, by omega⟩
          · rw [if_neg hk] at hr
            rcases ih (lineno + 1) pl (some v) r hr with ⟨ha, hl⟩
            exact ⟨ha, by omega⟩
      · rw [if_neg (by simpa using h2)] at hr
        rcases hrl : parse_rule_line (stripWs raw) with ⟨act, pat⟩
        rw [hrl] at hr
        cases act with
        | none =>
          dsimp only at hr
          rcases ih (lineno + 1) pl pc r hr with ⟨ha, hl⟩
          exact ⟨ha, by omega⟩
        | some a =>
          dsimp only at hr
          by_cases hplus : a = "+"
          · rw [if_pos hplus] at hr
            rcases ih (lineno + 1) none none r hr with ⟨ha, hl⟩
            exact ⟨ha, by omega⟩
          · rw [if_neg hplus] at hr
            rcases List.mem_cons.mp hr with hre | hr
            · have hact := parse_rule_line_action (stripWs raw)
              rw [hrl] at hact
              subst hre
              rcases hact with hact | hact | hact | hact
              · exact absurd hact (by simp)
              · exact absurd (by simpa using hact) hplus
              · refine ⟨Or.inl ?_, le_refl _⟩
                have ha2 : a = "-" := by simpa using hact
                simpa using ha2
              · refine ⟨Or.inr ?_, le_refl _⟩
                have ha2 : a = "!" := by simpa using hact
                simpa using ha2
            · rcases ih (lineno + 1) none none r hr with ⟨ha, hl⟩
              exact ⟨ha, by omega⟩

theorem parseLines_pairwise :
    ∀ (lines : List (List Char)) (lineno : Nat) (pl pc : Option String),
      (parseLines lineno pl pc lines).Pairwise (fun a b => a.lineno < b.lineno) := by
  intro lines
  induction lines with
  | nil =>
    intro lineno pl pc
    simp [parseLines]
  | cons raw rest ih =>
    intro lineno pl pc
    simp only [parseLines]
    by_cases h1 : (stripWs raw).isEmpty
    · rw [if_pos h1]
      exact ih (lineno + 1) none none
    · rw [if_neg h1]
      by_cases h2 : ((stripWs raw).head? == some '#') = true
      · rw [if_pos h2]
        cases hmeta : parseMetadataComment (stripWs raw) with
        | none => exact ih (lineno + 1) pl pc
        | some kv =>
          rcases kv with ⟨k, v⟩
          dsimp only
          by_cases hk : k = "label"
          · rw [if_pos hk]
            exact ih (lineno + 1) (some v) pc
          · rw [if_neg hk]
            exact ih (lineno + 1) pl (some v)
      · rw [if_neg (by simpa using h2)]
        rcases hrl : parse_rule_line (stripWs raw) with ⟨act, pat⟩
        cases act with
        | none => exact ih (lineno + 1) pl pc
        | some a =>
          by_cases hplus : a = "+"
          · dsimp only
            rw [if_pos hplus]
            exact ih (lineno + 1) none none
          · dsimp only
            rw [if_neg hplus]
            refine List.Pairwise.cons ?_ (ih (lineno + 1) none none)
            intro b hb
            have hbound := (parseLines_bound rest (lineno + 1) none none b hb).2
            simpa using by omega

/-- C4: for every input filter text, `parse_filter_file` never emits a rule
for a line whose action token is `+` — such a line only resets the pending
label and color — so the returned rules all carry action `-` or `!`, in
input-line order (strictly increasing line numbers). -/
theorem C4_plus_lines_produce_no_rule (text : String) :
    (∀ r ∈ parse_filter_file text, r.action = "-" ∨ r.action = "!") ∧
    (parse_filter_file text).Pairwise (fun a b => a.lineno < b.lineno) ∧
    (∀ (lineno : Nat) (pLabel pColor : Option String) (raw : List Char)
      (rest : List (List Char)),
      (stripWs raw).isEmpty = false →
      ((stripWs raw).head? == some '#') = false →
      (parse_rule_line (stripWs raw)).1 = some "+" →
      parseLines lineno pLabel pColor (raw :: rest) =
        parseLines (lineno + 1) none none rest) := by
  refine ⟨?_, ?_, ?_⟩
  · intro r hr
    exact (parseLines_bound (splitLines text.data) 1 none none r hr).1
  · exact parseLines_pairwise (splitLines text.data) 1 none none
  · intro lineno pLabel pColor raw rest hblank hhash hplus
    simp only [parseLines]
    rw [if_neg (by simp [hblank]), if_neg (by simp [hhash])]
    rcases hrl : parse_rule_line (stripWs raw) with ⟨act, pat⟩
    rw [hrl] at hplus
    have hact : act = some "+" := hplus
    subst hact
    dsimp only
    rw [if_pos rfl]

/-- Witness for C4 at a concrete filter text with a `+` line. -/
theorem C4_plus_lines_produce_no_rule_witness :
    (∀ r ∈ parse_filter_file "+ **/*.md\n- *.tmp", r.action = "-" ∨ r.action = "!") ∧
    parseLines 7 (some "x") none ["+ **/*.md".data] = parseLines 8 none none [] :=
  ⟨(C4_plus_lines_produce_no_rule "+ **/*.md\n- *.tmp").1,
    (C4_plus_lines_produce_no_rule "+ **/*.md\n- *.tmp").2.2 7 (some "x") none
      "+ **/*.md".data [] (by decide) (by decide) (by decide)⟩

/-! ## Scan-loop lemmas: statistics, cancellation and traces -/

theorem stepStats_spec (st : ScanStats) (e : FsEntry) (res : EvalRes)
    (heval : e.eval = some res) :
    (stepStats st e res).scanned = st.scanned + 1 ∧
    (stepStats st e res).files + (stepStats st e res).folders = st.files + st.folders + 1 ∧
    (stepStats st e res).matched_bytes = st.matched_bytes + matchedSize e ∧
    (stepStats st e res).matched = st.matched + (if res.matched then 1 else 0) := by
  unfold stepStats matchedSize
  rw [heval]
  by_cases hm : res.matched = true <;>
    by_cases hf : (buildNode e res).type = NodeType.file <;>
      simp [hm, hf] <;> omega

theorem scanEntries_ok (cancel pauseOk : Nat → Bool) :
    ∀ (d : List FsEntry) (t : Nat) (st : ScanStats) (nm : List (String × PathNode))
      (tr tr2 : List ScanEvent) (t2 : Nat) (st2 : ScanStats) (nm2 : List (String × PathNode)),
      scanEntries cancel pauseOk t st nm tr d = (tr2, some (t2, st2, nm2)) →
      t2 = t + d.length ∧
      (∀ u, t ≤ u → u < t + d.length → cancel u = false) ∧
      st2.scanned = st.scanned + (d.filter (fun e => e.eval.isSome)).length ∧
      st2.files + st2.folders =
        st.files + st.folders + (d.filter (fun e => e.eval.isSome)).length ∧
      st2.matched_bytes = st.matched_bytes + (d.map matchedSize).sum ∧
      (∀ tp : Nat, scanEntries (fun _ => false) (fun _ => true) tp st nm tr d =
        (tr2, some (tp + d.length, st2, nm2))) := by
  intro d
  induction d with
  | nil =>
    intro t st nm tr tr2 t2 st2 nm2 h
    simp only [scanEntries, Prod.mk.injEq, Option.some.injEq] at h
    obtain ⟨rfl, rfl, rfl, rfl⟩ := h
    refine ⟨rfl, ?_, by simp, by simp, by simp, ?_⟩
    · intro u h1 h2
      simp only [List.length_nil, Nat.add_zero] at h2
      omega
    · intro tp
      simp [scanEntries]
  | cons e rest ih =>
    intro t st nm tr tr2 t2 st2 nm2 h
    simp only [scanEntries] at h
    by_cases hc : cancel t = true
    · rw [if_pos hc] at h
      simp at h
    · rw [if_neg hc] at h
      by_cases hp : pauseOk t = true
      · rw [hp] at h
        simp only [Bool.not_true, Bool.false_eq_true, if_false] at h
        cases heval : e.eval with
        | none =>
          rw [heval] at h
          rcases ih (t + 1) st nm tr tr2 t2 st2 nm2 h with
            ⟨ht2, hcan, hsc, hff, hmb, hnc⟩
          refine ⟨by simp only [List.length_cons]; omega, ?_, ?_, ?_, ?_, ?_⟩
          · intro u hu1 hu2
            rcases Nat.eq_or_lt_of_le hu1 with rfl | hu3
            · simpa using hc
            · refine hcan u hu3 ?_
              simp only [List.length_cons] at hu2
              omega
          · simpa [List.filter_cons, heval] using hsc
          · simpa [List.filter_cons, heval] using hff
          · have hms : matchedSize e = 0 := by
              unfold matchedSize
              rw [heval]
            simp only [List.map_cons, List.sum_cons, hms]
            omega
          · intro tp
            simp only [scanEntries, if_neg (by simp : ¬(false = true)), Bool.not_true,
              Bool.false_eq_true, if_false, heval]
            rw [hnc (tp + 1)]
            simp only [List.length_cons]
            refine congrArg _ (congrArg _ (congrArg (fun n => (n, st2, nm2)) ?_))
            omega
        | some res =>
          rw [heval] at h
          rcases ih (t + 1) (stepStats st e res) (mapInsert nm res.rel_path (buildNode e res))
            (if (stepStats st e res).scanned % 200 == 0 || (stepStats st e res).scanned == 1
              then tr ++ [ScanEvent.progress (stepStats st e res).files
                (stepStats st e res).folders (stepStats st e res).matched
                (stepStats st e res).matched_bytes e.path]
              else tr) tr2 t2 st2 nm2 h with ⟨ht2, hcan, hsc, hff, hmb, hnc⟩
          rcases stepStats_spec st e res heval with ⟨hs1, hs2, hs3, _⟩
          refine ⟨by simp only [List.length_cons]; omega, ?_, ?_, ?_, ?_, ?_⟩
          · intro u hu1 hu2
            rcases Nat.eq_or_lt_of_le hu1 with rfl | hu3
            · simpa using hc
            · refine hcan u hu3 ?_
              simp only [List.length_cons] at hu2
              omega
          · rw [List.filter_cons_of_pos (by simp [heval])]
            rw [hsc, hs1]
            simp only [List.length_cons]
            omega
          · rw [List.filter_cons_of_pos (by simp [heval])]
            rw [hff]
            simp only [List.length_cons]
            omega
          · simp only [List.map_cons, List.sum_cons]
            rw [hmb, hs3]
            omega
          · intro tp
            simp only [scanEntries, if_neg (by simp : ¬(false = true)), Bool.not_true,
              Bool.false_eq_true, if_false, heval]
            rw [hnc (tp + 1)]
            simp only [List.length_cons]
            refine congrArg _ (congrArg _ (congrArg (fun n => (n, st2, nm2)) ?_))
            omega
      · have hp2 : pauseOk t = false := by
          cases hval : pauseOk t
          · rfl
          · exact absurd hval hp
        rw [hp2] at h
        simp at h

theorem checkpointCount_cons (d : List FsEntry) (ds : List (List FsEntry)) :
    checkpointCount (d :: ds) = 1 + d.length + checkpointCount ds := by
  simp only [checkpointCount, List.length_cons, List.map_cons, List.sum_cons]
  omega

theorem scanWalk_ok (cancel pauseOk : Nat → Bool) :
    ∀ (walk : List (List FsEntry)) (t : Nat) (st : ScanStats)
      (nm : List (String × PathNode)) (tr tr2 : List ScanEvent) (st2 : ScanStats)
      (nm2 : List (String × PathNode)),
      scanWalk cancel pauseOk t st nm tr walk = (tr2, some (st2, nm2)) →
      (∀ u, t ≤ u → u < t + checkpointCount walk → cancel u = false) ∧
      st2.scanned = st.scanned + (walk.flatten.filter (fun e => e.eval.isSome)).length ∧
      st2.files + st2.folders =
        st.files + st.folders + (walk.flatten.filter (fun e => e.eval.isSome)).length ∧
      st2.matched_bytes = st.matched_bytes + (walk.flatten.map matchedSize).sum ∧
      (∀ tp : Nat, scanWalk (fun _ => false) (fun _ => true) tp st nm tr walk =
        (tr2, some (st2, nm2))) := by
  intro walk
  induction walk with
  | nil =>
    intro t st nm tr tr2 st2 nm2 h
    simp only [scanWalk, Prod.mk.injEq, Option.some.injEq] at h
    obtain ⟨rfl, rfl, rfl⟩ := h
    refine ⟨?_, by simp, by simp, by simp, ?_⟩
    · intro u h1 h2
      simp only [checkpointCount, List.length_nil, List.map_nil, List.sum_nil,
        Nat.add_zero] at h2
      omega
    · intro tp
      simp [scanWalk]
  | cons d ds ih =>
    intro t st nm tr tr2 st2 nm2 h
    simp only [scanWalk] at h
    by_cases hc : cancel t = true
    · rw [if_pos hc] at h
      simp at h
    · rw [if_neg hc] at h
      by_cases hp : pauseOk t = true
      · rw [hp] at h
        simp only [Bool.not_true, Bool.false_eq_true, if_false] at h
        cases hse : scanEntries cancel pauseOk (t + 1) st nm tr d with
        | mk trE resE =>
          rw [hse] at h
          cases resE with
          | none => simp at h
          | some v =>
            rcases v with ⟨tE, stE, nmE⟩
            dsimp only at h
            rcases scanEntries_ok cancel pauseOk d (t + 1) st nm tr trE tE stE nmE hse with
              ⟨htE, hcanE, hscE, hffE, hmbE, hncE⟩
            rcases ih tE stE nmE trE tr2 st2 nm2 h with ⟨hcan, hsc, hff, hmb, hnc⟩
            refine ⟨?_, ?_, ?_, ?_, ?_⟩
            · intro u h1 h2
              rcases Nat.eq_or_lt_of_le h1 with rfl | hu3
              · simpa using hc
              · rcases Nat.lt_or_ge u (t + 1 + d.length) with hu4 | hu4
                · exact hcanE u hu3 hu4
                · refine hcan u (by omega) ?_
                  rw [checkpointCount_cons] at h2
                  omega
            · rw [hsc, hscE]
              simp only [List.flatten_cons, List.filter_append, List.length_append]
              omega
            · rw [hff, hffE]
              simp only [List.flatten_cons, List.filter_append, List.length_append]
              omega
            · rw [hmb, hmbE]
              simp only [List.flatten_cons, List.map_append, List.sum_append]
              omega
            · intro tp
              simp only [scanWalk, if_neg (by simp : ¬(false = true)), Bool.not_true,
                Bool.false_eq_true, if_false]
              rw [hncE (tp + 1)]
              exact hnc (tp + 1 + d.length)
      · have hp2 : pauseOk t = false := by
          cases hval : pauseOk t
          · rfl
          · exact absurd hval hp
        rw [hp2] at h
        simp at h

theorem runScan_ok (cancel pauseOk : Nat → Bool) (root : String)
    (walk : List (List FsEntry)) (tr : List ScanEvent) (p : ScanPayload)
    (h : runScan cancel pauseOk root walk = (tr, some p)) :
    runScan cancel pauseOk root walk =
      runScan (fun _ => false) (fun _ => true) root walk ∧
    (∀ u, u < checkpointCount walk → cancel u = false) ∧
    p.stats.scanned = (walk.flatten.filter (fun e => e.eval.isSome)).length ∧
    p.stats.files + p.stats.folders =
      (walk.flatten.filter (fun e => e.eval.isSome)).length ∧
    p.stats.matched_bytes = (walk.flatten.map matchedSize).sum := by
  unfold runScan at h ⊢
  cases hsw : scanWalk cancel pauseOk 0 {} (initNodeMap root) [] walk with
  | mk trW resW =>
    rw [hsw] at h
    cases resW with
    | none => simp at h
    | some v =>
      rcases v with ⟨stW, nmW⟩
      dsimp only at h
      rcases scanWalk_ok cancel pauseOk walk 0 {} (initNodeMap root) [] trW stW nmW hsw with
        ⟨hcan, hsc, hff, hmb, hnc⟩
      have hp : p = { nodes := nmW, stats := stW } := by
        have h2 := congrArg Prod.snd h
        simpa using h2.symm
      subst hp
      refine ⟨?_, ?_, ?_, ?_, ?_⟩
      · rw [hnc 0]
      · intro u hu
        exact hcan u (Nat.zero_le u) (by omega)
      · simpa using hsc
      · simpa using hff
      · simpa using hmb

theorem scanEntries_trace (cancel pauseOk : Nat → Bool) :
    ∀ (d : List FsEntry) (t : Nat) (st : ScanStats) (nm : List (String × PathNode))
      (tr : List ScanEvent),
      (∀ ev ∈ tr, ∃ f fo m b pa, ev = ScanEvent.progress f fo m b pa) →
      ∀ ev ∈ (scanEntries cancel pauseOk t st nm tr d).1,
        ∃ f fo m b pa, ev = ScanEvent.progress f fo m b pa := by
  intro d
  induction d with
  | nil =>
    intro t st nm tr htr
    simpa [scanEntries] using htr
  | cons e rest ih =>
    intro t st nm tr htr
    simp only [scanEntries]
    by_cases hc : cancel t = true
    · rw [if_pos hc]
      exact htr
    · rw [if_neg hc]
      by_cases hp : pauseOk t = true
      · rw [hp]
        simp only [Bool.not_true, Bool.false_eq_true, if_false]
        cases heval : e.eval with
        | none => exact ih (t + 1) st nm tr htr
        | some res =>
          refine ih (t + 1) _ _ _ ?_
          by_cases hemit : ((stepStats st e res).scanned % 200 == 0 ||
              (stepStats st e res).scanned == 1) = true
          · rw [if_pos hemit]
            intro ev hev
            rcases List.mem_append.mp hev with hev | hev
            · exact htr ev hev
            · rcases List.mem_singleton.mp hev with rfl
              exact ⟨_, _, _, _, _, rfl⟩
          · rw [if_neg hemit]
            exact htr
      · have hp2 : pauseOk t = false := by
          cases hval : pauseOk t
          · rfl
          · exact absurd hval hp
        rw [hp2]
        simp only [Bool.not_false, if_true]
        exact htr

theorem scanWalk_trace (cancel pauseOk : Nat → Bool) :
    ∀ (walk : List (List FsEntry)) (t : Nat) (st : ScanStats)
      (nm : List (String × PathNode)) (tr : List ScanEvent),
      (∀ ev ∈ tr, ∃ f fo m b pa, ev = ScanEvent.progress f fo m b pa) →
      ∀ ev ∈ (scanWalk cancel pauseOk t st nm tr walk).1,
        ∃ f fo m b pa, ev = ScanEvent.progress f fo m b pa := by
  intro walk
  induction walk with
  | nil =>
    intro t st nm tr htr
    simpa [scanWalk] using htr
  | cons d ds ih =>
    intro t st nm tr htr
    simp only [scanWalk]
    by_cases hc : cancel t = true
    · rw [if_pos hc]
      exact htr
    · rw [if_neg hc]
      by_cases hp : pauseOk t = true
      · rw [hp]
        simp only [Bool.not_true, Bool.false_eq_true, if_false]
        have htrE := scanEntries_trace cancel pauseOk d (t + 1) st nm tr htr
        cases hse : scanEntries cancel pauseOk (t + 1) st nm tr d with
        | mk trE resE =>
          rw [hse] at htrE
          cases resE with
          | none => exact htrE
          | some v =>
            rcases v with ⟨tE, stE, nmE⟩
            exact ih tE stE nmE trE htrE
      · have hp2 : pauseOk t = false := by
          cases hval : pauseOk t
          · rfl
          · exact absurd hval hp
        rw [hp2]
        simp only [Bool.not_false, if_true]
        exact htr

theorem waitIfPaused_cancel :
    ∀ (polls : List (Bool × Bool)) (i : Nat),
      polls[i]? = some (false, true) →
      (∀ j, j < i → polls[j]? = some (false, false)) →
      waitIfPausedM polls = some false := by
  intro polls
  induction polls with
  | nil =>
    intro i hi _
    simp at hi
  | cons pr rest ih =>
    intro i hi hj
    cases i with
    | zero =>
      simp only [List.getElem?_cons_zero, Option.some.injEq] at hi
      subst hi
      simp [waitIfPausedM]
    | succ i2 =>
      have h0 := hj 0 (Nat.succ_pos i2)
      simp only [List.getElem?_cons_zero, Option.some.injEq] at h0
      subst h0
      simp only [waitIfPausedM, Bool.false_eq_true, if_false]
      refine ih i2 ?_ ?_
      · simpa using hi
      · intro j hjlt
        have := hj (j + 1) (by omega)
        simpa using this

/-! ## Claim C5 -/

/-- C5: a cancelled scan never delivers a partial result tree.  First, any
payload a run delivers equals the payload of the complete, uncancelled run
over the same walk (so no partial tree is ever handed out).  Second, if the
cancellation flag is up at any checkpoint the traversal reaches, the run
returns the distinct cancelled outcome — `none` rather than a payload, with
`start` emitting the `cancelled` signal and nothing else after the trace
(the model has no error outcome on this path).  Third, the
`_wait_if_paused` poll loop observes a cancellation requested while paused
within the polls themselves — returning `false` at the first poll whose
cancellation flag is set, with no resume (`eventSet`) required first. -/
theorem C5_cancellation_no_partial_tree :
    (∀ (cancel pauseOk : Nat → Bool) (root : String) (walk : List (List FsEntry))
      (tr : List ScanEvent) (p : ScanPayload),
      runScan cancel pauseOk root walk = (tr, some p) →
      runScan cancel pauseOk root walk = runScan (fun _ => false) (fun _ => true) root walk) ∧
    (∀ (cancel pauseOk : Nat → Bool) (root : String) (walk : List (List FsEntry)) (u : Nat),
      u < checkpointCount walk → cancel u = true →
      (runScan cancel pauseOk root walk).2 = none ∧
      startScan cancel pauseOk root walk =
        (runScan cancel pauseOk root walk).1 ++ [ScanEvent.cancelledSig]) ∧
    (∀ (polls : List (Bool × Bool)) (i : Nat),
      polls[i]? = some (false, true) →
      (∀ j, j < i → polls[j]? = some (false, false)) →
      waitIfPausedM polls = some false) := by
  refine ⟨?_, ?_, waitIfPaused_cancel⟩
  · intro cancel pauseOk root walk tr p h
    exact (runScan_ok cancel pauseOk root walk tr p h).1
  · intro cancel pauseOk root walk u hu hc
    rcases hr : runScan cancel pauseOk root walk with ⟨tr, res⟩
    cases res with
    | some p =>
      have := (runScan_ok cancel pauseOk root walk tr p hr).2.1 u hu
      rw [hc] at this
      exact absurd this (by simp)
    | none =>
      constructor
      · rfl
      · unfold startScan
        rw [hr]

/-- Witness for C5: a run with the cancellation flag up from the start is
cancelled (not finished), a completed run equals the uncancelled run, and a
pause poll observing the cancel flag exits with `false`. -/
theorem C5_cancellation_no_partial_tree_witness :
    ((runScan (fun _ => true) (fun _ => true) "/r" [[]]).2 = none ∧
      startScan (fun _ => true) (fun _ => true) "/r" [[]] =
        (runScan (fun _ => true) (fun _ => true) "/r" [[]]).1 ++ [ScanEvent.cancelledSig]) ∧
    runScan (fun _ => false) (fun _ => true) "/r" [[]] =
      runScan (fun _ => false) (fun _ => true) "/r" [[]] ∧
    waitIfPausedM [(false, false), (false, true)] = some false :=
  ⟨C5_cancellation_no_partial_tree.2.1 (fun _ => true) (fun _ => true) "/r" [[]] 0
      (by decide) rfl,
    C5_cancellation_no_partial_tree.1 (fun _ => false) (fun _ => true) "/r" [[]]
      [ScanEvent.progress 0 0 0 0 "done"]
      { nodes := initNodeMap "/r", stats := {} } (by decide),
    C5_cancellation_no_partial_tree.2.2 [(false, false), (false, true)] 1 (by decide)
      (by decide)⟩

/-! ## Claim C6 -/

/-- C6 counterexample: the claim asserts the final `"done"` progress event
is emitted before the terminal signal on every run, completion or
cancellation alike; but a run cancelled at the first checkpoint emits the
`cancelled` signal with no `"done"` progress event at all. -/
theorem C6_counterexample :
    startScan (fun _ => true) (fun _ => true) "/r"
      [[{ path := "/r/a", eval := some { rel_path := "a", matched := false } }]] =
      [ScanEvent.cancelledSig] := by
  decide

/-- C6 (amended): on runs that complete, the sentinel `"done"` progress
event is emitted after all per-entry progress events and immediately before
the `finished` signal; a cancelled run emits no `"done"` sentinel — the
`cancelled` signal directly follows the per-entry progress trace. -/
theorem C6_done_sentinel (cancel pauseOk : Nat → Bool) (root : String)
    (walk : List (List FsEntry)) :
    (∀ (tr : List ScanEvent) (p : ScanPayload),
      runScan cancel pauseOk root walk = (tr, some p) →
      ∃ tr0, tr = tr0 ++ [ScanEvent.progress p.stats.files p.stats.folders
          p.stats.matched p.stats.matched_bytes "done"] ∧
        startScan cancel pauseOk root walk =
          tr0 ++ [ScanEvent.progress p.stats.files p.stats.folders p.stats.matched
            p.stats.matched_bytes "done", ScanEvent.finishedSig p]) ∧
    (∀ tr : List ScanEvent,
      runScan cancel pauseOk root walk = (tr, none) →
      startScan cancel pauseOk root walk = tr ++ [ScanEvent.cancelledSig] ∧
      ∀ ev ∈ tr, ∃ f fo m b pa, ev = ScanEvent.progress f fo m b pa) := by
  constructor
  · intro tr p h
    have hst : startScan cancel pauseOk root walk = tr ++ [ScanEvent.finishedSig p] := by
      unfold startScan
      rw [h]
    unfold runScan at h
    cases hsw : scanWalk cancel pauseOk 0 {} (initNodeMap root) [] walk with
    | mk trW resW =>
      rw [hsw] at h
      cases resW with
      | none => simp at h
      | some v =>
        rcases v with ⟨stW, nmW⟩
        dsimp only at h
        have htr := congrArg Prod.fst h
        have hp := congrArg Prod.snd h
        simp only at htr hp
        have hp2 : p = { nodes := nmW, stats := stW } := by
          simpa using hp.symm
        subst hp2
        refine ⟨trW, ?_, ?_⟩
        · rw [← htr]
        · rw [hst, ← htr]
          simp
  · intro tr h
    constructor
    · unfold startScan
      rw [h]
    · unfold runScan at h
      cases hsw : scanWalk cancel pauseOk 0 {} (initNodeMap root) [] walk with
      | mk trW resW =>
        rw [hsw] at h
        cases resW with
        | none =>
          have htr : trW = tr := by
            have := congrArg Prod.fst h
            simpa using this
          subst htr
          have := scanWalk_trace cancel pauseOk walk 0 {} (initNodeMap root) []
            (by intro ev hev; simp at hev)
          rw [hsw] at this
          exact this
        | some v =>
          rcases v with ⟨stW, nmW⟩
          dsimp only at h
          simp at h

/-- Witness for C6 (amended) on a one-directory walk with no entries. -/
theorem C6_done_sentinel_witness :
    ∃ tr0, [ScanEvent.progress 0 0 0 0 "done"] =
      tr0 ++ [ScanEvent.progress 0 0 0 0 "done"] ∧
      startScan (fun _ => false) (fun _ => true) "/r" [[]] =
        tr0 ++ [ScanEvent.progress 0 0 0 0 "done",
          ScanEvent.finishedSig { nodes := initNodeMap "/r", stats := {} }] :=
  (C6_done_sentinel (fun _ => false) (fun _ => true) "/r" [[]]).1
    [ScanEvent.progress 0 0 0 0 "done"]
    { nodes := initNodeMap "/r", stats := {} } (by decide)

/-! ## Claim C10 -/

/-- C10: the statistics invariant holds at every point of a scan.  After
each recorded entry, `scanned` grows by one together with exactly one of
`files`/`folders` (so `scanned = files + folders` is preserved step by
step), and `matched_bytes` grows by exactly the entry's matched size — the
stat size for matched file entries whose size could be read, zero for
directory matches and for files with unreadable size.  Consequently every
delivered payload satisfies `scanned = files + folders` and
`matched_bytes = Σ matchedSize` over the walk. -/
theorem C10_stats_invariant :
    (∀ (st : ScanStats) (e : FsEntry) (res : EvalRes), e.eval = some res →
      st.scanned = st.files + st.folders →
      (stepStats st e res).scanned =
        (stepStats st e res).files + (stepStats st e res).folders ∧
      (stepStats st e res).matched_bytes = st.matched_bytes + matchedSize e) ∧
    (∀ (cancel pauseOk : Nat → Bool) (root : String) (walk : List (List FsEntry))
      (tr : List ScanEvent) (p : ScanPayload),
      runScan cancel pauseOk root walk = (tr, some p) →
      p.stats.scanned = p.stats.files + p.stats.folders ∧
      p.stats.matched_bytes = (walk.flatten.map matchedSize).sum) := by
  constructor
  · intro st e res heval hinv
    rcases stepStats_spec st e res heval with ⟨h1, h2, h3, _⟩
    exact ⟨by omega, h3⟩
  · intro cancel pauseOk root walk tr p h
    rcases runScan_ok cancel pauseOk root walk tr p h with ⟨_, _, hsc, hff, hmb⟩
    exact ⟨by omega, hmb⟩

/-- Witness for C10 at a concrete matched file entry and a concrete run. -/
theorem C10_stats_invariant_witness :
    ((stepStats {} { path := "/r/a", eval := some { rel_path := "a", matched := true }, statRes := some (10, 5) } { rel_path := "a", matched := true }).scanned =
      (stepStats {} { path := "/r/a", eval := some { rel_path := "a", matched := true }, statRes := some (10, 5) } { rel_path := "a", matched := true }).files +
      (stepStats {} { path := "/r/a", eval := some { rel_path := "a", matched := true }, statRes := some (10, 5) } { rel_path := "a", matched := true }).folders ∧
      (stepStats {} { path := "/r/a", eval := some { rel_path := "a", matched := true }, statRes := some (10, 5) } { rel_path := "a", matched := true }).matched_bytes =
      ({} : ScanStats).matched_bytes + matchedSize { path := "/r/a", eval := some { rel_path := "a", matched := true }, statRes := some (10, 5) }) ∧
    (({} : ScanStats).scanned = ({} : ScanStats).files + ({} : ScanStats).folders ∧
      ({} : ScanStats).matched_bytes =
        (([[]] : List (List FsEntry)).flatten.map matchedSize).sum) :=
  ⟨C10_stats_invariant.1 {} _ _ rfl rfl,
    C10_stats_invariant.2 (fun _ => false) (fun _ => true) "/r" [[]]
      [ScanEvent.progress 0 0 0 0 "done"]
      { nodes := initNodeMap "/r", stats := {} } (by decide)⟩

/-! ## Match-engine lemmas and claim C1 -/

theorem patMatchOne_ok {v : List Char} (hwf : wfVariant v) (parts : List (List Char)) :
    ∃ b, patMatchOne v parts = .ok b := by
  unfold patMatchOne
  by_cases hh : (v.head? == some '/') = true
  · rw [if_pos hh]
    exact ⟨false, rfl⟩
  · rw [if_neg hh]
    rcases hwf with hwf | hwf
    · exact absurd (by simp [hwf]) hh
    · cases hpp : partsOf v with
      | nil => exact absurd hpp hwf
      | cons p ps =>
        dsimp only
        by_cases hlen : parts.length < (p :: ps).length
        · exact ⟨false, by rw [if_pos hlen]⟩
        · exact ⟨_, by rw [if_neg hlen]⟩

theorem anyVariantMatches_ok :
    ∀ (pats : List (List Char)), (∀ v ∈ pats, wfVariant v) →
      ∀ parts, ∃ b, anyVariantMatches pats parts = .ok b
  | [], _, parts => ⟨false, rfl⟩
  | v :: rest, h, parts => by
    rcases patMatchOne_ok (h v (List.mem_cons_self v rest)) parts with ⟨b, hb⟩
    cases b with
    | false =>
      rcases anyVariantMatches_ok rest (fun x hx => h x (List.mem_cons_of_mem v hx)) parts
        with ⟨b2, hb2⟩
      exact ⟨b2, by simp [anyVariantMatches, hb, hb2]⟩
    | true => exact ⟨true, by simp [anyVariantMatches, hb]⟩

theorem matchingAux_ok (cs : Bool) (parts : List (List Char)) :
    ∀ (P : List PreparedRule) (acc : List Nat),
      (∀ pr ∈ P, ∀ v ∈ prPatterns cs pr, wfVariant v) →
      matchingAux cs parts P acc =
        .ok (acc ++ (P.filter (fun pr =>
          decide (anyVariantMatches (prPatterns cs pr) parts = Except.ok true))).map
            (fun pr => pr.index))
  | [], acc, _ => by simp [matchingAux]
  | pr :: rest, acc, h => by
    rcases anyVariantMatches_ok (prPatterns cs pr) (h pr (List.mem_cons_self pr rest)) parts
      with ⟨b, hb⟩
    have hrest : ∀ x ∈ rest, ∀ v ∈ prPatterns cs x, wfVariant v :=
      fun x hx => h x (List.mem_cons_of_mem pr hx)
    cases b with
    | false =>
      rw [List.filter_cons_of_neg (by simp [hb])]
      simp only [matchingAux, hb]
      exact matchingAux_ok cs parts rest acc hrest
    | true =>
      rw [List.filter_cons_of_pos (by simp [hb])]
      simp only [matchingAux, hb]
      rw [matchingAux_ok cs parts rest (acc ++ [pr.index]) hrest]
      simp

theorem prepAux_get (n : Nat) :
    ∀ (rules : List Rule), (∀ r ∈ rules, r.pattern ≠ "") → ∀ i : Nat,
      (prepAux n rules).get? i = (rules.get? i).map
        (fun r => ⟨r, n + i, expandPatternsL r.pattern.data,
          expandPatternsL (lowerStr r.pattern.data)⟩)
  | [], _, i => by simp [prepAux]
  | r :: rest, h, i => by
    have hr : r.pattern ≠ "" := h r (List.mem_cons_self r rest)
    have hrest : ∀ x ∈ rest, x.pattern ≠ "" := fun x hx => h x (List.mem_cons_of_mem r hx)
    simp only [prepAux, if_pos hr, List.singleton_append]
    cases i with
    | zero => simp
    | succ j =>
      simp only [List.get?_cons_succ]
      rw [prepAux_get (n + 1) rest hrest j]
      have harith : n + 1 + j = n + (j + 1) := by omega
      rw [harith]

theorem prepAux_indexes (n : Nat) :
    ∀ (rules : List Rule), (∀ r ∈ rules, r.pattern ≠ "") →
      (prepAux n rules).map (fun pr => pr.index) = List.range' n rules.length
  | [], _ => rfl
  | r :: rest, h => by
    have hr : r.pattern ≠ "" := h r (List.mem_cons_self r rest)
    have hrest : ∀ x ∈ rest, x.pattern ≠ "" := fun x hx => h x (List.mem_cons_of_mem r hx)
    simp only [prepAux, if_pos hr, List.singleton_append, List.map_cons, List.length_cons]
    rw [prepAux_indexes (n + 1) rest hrest]
    rw [List.range'_succ]

theorem prepAux_wf {cs : Bool} {rules : List Rule}
    (h2 : ∀ r ∈ rules, ∀ v ∈ usedVariants cs r.pattern, wfVariant v) :
    ∀ n, ∀ pr ∈ prepAux n rules, ∀ v ∈ prPatterns cs pr, wfVariant v := by
  induction rules with
  | nil =>
    intro n pr hpr
    simp [prepAux] at hpr
  | cons r rest ih =>
    intro n pr hpr
    simp only [prepAux] at hpr
    rcases List.mem_append.mp hpr with hpr | hpr
    · by_cases hr : r.pattern ≠ ""
      · rw [if_pos hr] at hpr
        have hpr2 := List.mem_singleton.mp hpr
        subst hpr2
        intro v hv
        refine h2 r (List.mem_cons_self r rest) v ?_
        unfold usedVariants
        unfold prPatterns at hv
        cases cs
        · simpa using hv
        · simpa using hv
      · rw [if_neg hr] at hpr
        simp at hpr
    · exact ih (fun x hx => h2 x (List.mem_cons_of_mem r hx)) (n + 1) pr hpr

theorem prPatterns_mk (cs : Bool) (r : Rule) (idx : Nat) :
    prPatterns cs ⟨r, idx, expandPatternsL r.pattern.data,
      expandPatternsL (lowerStr r.pattern.data)⟩ = usedVariants cs r.pattern := by
  cases cs <;> rfl

/-- C1 (amended): provided every rule has a non-empty pattern and every
expanded variant in use is well-formed (no degenerate variant, such as `.`,
that makes `PurePosixPath.match` raise `ValueError`), the engine realizes
first-match-wins: `matching_rule_indexes` returns exactly the matching
original rule indexes in strictly ascending order, and `match_path` returns
`matched = false` when that list is empty and otherwise a matched decision
whose `rule_index` is the LEAST matching original index, carrying that
rule. -/
theorem C1_first_match_wins (rules : List Rule) (cs : Bool) (path : String)
    (h1 : ∀ r ∈ rules, r.pattern ≠ "")
    (h2 : ∀ r ∈ rules, ∀ v ∈ usedVariants cs r.pattern, wfVariant v) :
    ∃ l : List Nat,
      (mkEngine rules cs).matching_rule_indexes path = .ok l ∧
      (∀ i, i ∈ l ↔ RuleMatchesAt rules cs ((mkEngine rules cs).testParts path) i) ∧
      l.Pairwise (fun a b => a < b) ∧
      (l = [] → (mkEngine rules cs).match_path path = some { matched := false }) ∧
      (∀ first rest, l = first :: rest →
        (∀ j ∈ l, first ≤ j) ∧
        ∃ r, rules.get? first = some r ∧
          (mkEngine rules cs).match_path path =
            some { matched := true, rule_index := some first, rule := some r }) := by
  have hparts : (mkEngine rules cs).testParts path = (mkEngine rules cs).testParts path := rfl
  have hwfall : ∀ pr ∈ prepAux 0 rules, ∀ v ∈ prPatterns cs pr, wfVariant v :=
    prepAux_wf h2 0
  have hmri : (mkEngine rules cs).matching_rule_indexes path =
      .ok (((prepAux 0 rules).filter (fun pr =>
        decide (anyVariantMatches (prPatterns cs pr) ((mkEngine rules cs).testParts path) =
          Except.ok true))).map (fun pr => pr.index)) := by
    unfold MatchEngine.matching_rule_indexes
    exact matchingAux_ok cs ((mkEngine rules cs).testParts path) (prepAux 0 rules) [] hwfall
  refine ⟨_, hmri, ?_, ?_, ?_, ?_⟩
  · intro i
    constructor
    · intro hi
      rcases List.mem_map.mp hi with ⟨pr, hprmem, hidx⟩
      rcases List.mem_filter.mp hprmem with ⟨hprP, hphi⟩
      rcases List.mem_iff_get?.mp hprP with ⟨j, hj⟩
      rw [prepAux_get 0 rules h1 j] at hj
      cases hr : rules.get? j with
      | none =>
        rw [hr] at hj
        simp at hj
      | some r =>
        rw [hr] at hj
        have hj2 : (⟨r, 0 + j, expandPatternsL r.pattern.data,
            expandPatternsL (lowerStr r.pattern.data)⟩ : PreparedRule) = pr :=
          Option.some_inj.mp hj
        have hidx2 : pr.index = j := by
          rw [← hj2]
          simp
        have hieq : i = j := by
          rw [← hidx, hidx2]
        subst hieq
        refine ⟨r, hr, h1 r (List.get?_mem hr), ?_⟩
        have hphi2 := of_decide_eq_true hphi
        rw [← hj2] at hphi2
        rwa [prPatterns_mk] at hphi2
    · rintro ⟨r, hget, hne, hmatch⟩
      have hj : (prepAux 0 rules).get? i = some ⟨r, 0 + i, expandPatternsL r.pattern.data,
          expandPatternsL (lowerStr r.pattern.data)⟩ := by
        rw [prepAux_get 0 rules h1 i, hget]
        rfl
      refine List.mem_map.mpr ⟨⟨r, 0 + i, expandPatternsL r.pattern.data,
        expandPatternsL (lowerStr r.pattern.data)⟩, ?_, by simp⟩
      refine List.mem_filter.mpr ⟨List.get?_mem hj, ?_⟩
      rw [prPatterns_mk]
      exact decide_eq_true hmatch
  · have hsub := List.Sublist.map (fun pr => pr.index)
      (@List.filter_sublist _ (fun pr =>
        decide (anyVariantMatches (prPatterns cs pr) ((mkEngine rules cs).testParts path) =
          Except.ok true)) (prepAux 0 rules))
    rw [prepAux_indexes 0 rules h1] at hsub
    exact (List.pairwise_lt_range' 0 rules.length).sublist hsub
  · intro heq
    unfold MatchEngine.match_path
    rw [hmri, heq]
  · intro first rest heq
    have hfirstmem : first ∈ ((prepAux 0 rules).filter (fun pr =>
        decide (anyVariantMatches (prPatterns cs pr) ((mkEngine rules cs).testParts path) =
          Except.ok true))).map (fun pr => pr.index) := by
      rw [heq]
      exact List.mem_cons_self first rest
    have hpair : (((prepAux 0 rules).filter (fun pr =>
        decide (anyVariantMatches (prPatterns cs pr) ((mkEngine rules cs).testParts path) =
          Except.ok true))).map (fun pr => pr.index)).Pairwise (fun a b => a < b) := by
      have hsub := List.Sublist.map (fun pr => pr.index)
        (@List.filter_sublist _ (fun pr =>
          decide (anyVariantMatches (prPatterns cs pr) ((mkEngine rules cs).testParts path) =
            Except.ok true)) (prepAux 0 rules))
      rw [prepAux_indexes 0 rules h1] at hsub
      exact (List.pairwise_lt_range' 0 rules.length).sublist hsub
    constructor
    · intro j hj
      rw [heq] at hj hpair
      rcases List.mem_cons.mp hj with rfl | hj
      · exact le_refl _
      · exact le_of_lt ((List.pairwise_cons.mp hpair).1 j hj)
    · rcases List.mem_map.mp hfirstmem with ⟨pr, hprmem, hidx⟩
      rcases List.mem_filter.mp hprmem with ⟨hprP, _⟩
      rcases List.mem_iff_get?.mp hprP with ⟨j, hj⟩
      rw [prepAux_get 0 rules h1 j] at hj
      cases hr : rules.get? j with
      | none =>
        rw [hr] at hj
        simp at hj
      | some r =>
        rw [hr] at hj
        have hj2 : (⟨r, 0 + j, expandPatternsL r.pattern.data,
            expandPatternsL (lowerStr r.pattern.data)⟩ : PreparedRule) = pr :=
          Option.some_inj.mp hj
        have hidx2 : pr.index = j := by
          rw [← hj2]
          simp
        have hieq : first = j := by
          rw [← hidx, hidx2]
        subst hieq
        refine ⟨r, hr, ?_⟩
        unfold MatchEngine.match_path
        rw [hmri, heq]
        dsimp only
        have hget2 : (mkEngine rules cs).prepared.get? first = some pr := by
          have hp2 : (mkEngine rules cs).prepared = prepAux 0 rules := rfl
          rw [hp2, prepAux_get 0 rules h1 first, hr, hj]
        rw [hget2]
        dsimp only
        have hrule : pr.rule = r := by
          rw [← hj2]
        rw [hrule]

/-- Witness for C1 (amended) on the spec's first-match-wins example: the
three-line filter list (whose `+` line produces no rule) and the path
`notes.tmp`. -/
theorem C1_first_match_wins_witness :
    ∃ l : List Nat,
      (mkEngine (parse_filter_file "- **/*.tmp\n- **/cache/**\n+ **/*.md")
        false).matching_rule_indexes "notes.tmp" = .ok l ∧
      (∀ i, i ∈ l ↔ RuleMatchesAt (parse_filter_file "- **/*.tmp\n- **/cache/**\n+ **/*.md")
        false ((mkEngine (parse_filter_file "- **/*.tmp\n- **/cache/**\n+ **/*.md")
          false).testParts "notes.tmp") i) ∧
      l.Pairwise (fun a b => a < b) ∧
      (l = [] → (mkEngine (parse_filter_file "- **/*.tmp\n- **/cache/**\n+ **/*.md")
        false).match_path "notes.tmp" = some { matched := false }) ∧
      (∀ first rest, l = first :: rest →
        (∀ j ∈ l, first ≤ j) ∧
        ∃ r, (parse_filter_file "- **/*.tmp\n- **/cache/**\n+ **/*.md").get? first = some r ∧
          (mkEngine (parse_filter_file "- **/*.tmp\n- **/cache/**\n+ **/*.md")
            false).match_path "notes.tmp" =
            some { matched := true, rule_index := some first, rule := some r }) :=
  C1_first_match_wins (parse_filter_file "- **/*.tmp\n- **/cache/**\n+ **/*.md") false
    "notes.tmp" (by decide) (by decide)

/-! ## Tree-reconstruction lemmas and claim C7 -/

/-- C7 counterexample: the attachment loop sorts the recorded keys by
`(PurePosixPath(key).parts, key)` — compare segment tuples first — not by
path-segment depth first as the claim states: for the recorded keys `b`
(depth 1) and `a/x` (depth 2) the code's order puts `a/x` before `b`,
while the claimed depth-then-lexicographic order puts `b` first. -/
theorem C7_counterexample :
    orderedKeysOf [("", { abs_path := "/r", rel_path := "", type := .dir }),
      ("b", { abs_path := "/r/b", rel_path := "b", type := .file }),
      ("a/x", { abs_path := "/r/a/x", rel_path := "a/x", type := .file })] = ["a/x", "b"] ∧
    List.insertionSort specKeyOrder
      (((([("", ({ abs_path := "/r", rel_path := "", type := .dir } : PathNode)),
        ("b", { abs_path := "/r/b", rel_path := "b", type := .file }),
        ("a/x", { abs_path := "/r/a/x", rel_path := "a/x", type := .file })]).map
          Prod.fst).filter (fun k => k ≠ ""))) = ["b", "a/x"] ∧
    (["a/x", "b"] : List String) ≠ ["b", "a/x"] := by
  refine ⟨by decide, by decide, by decide⟩

theorem splitSep_no_sep {sep : Char} :
    ∀ {l : List Char}, sep ∉ l → splitSep sep l = [l]
  | [], _ => rfl
  | c :: rest, h => by
    have hc : ¬(c == sep) = true := by
      simp only [beq_iff_eq]
      intro hcon
      exact h (hcon ▸ List.mem_cons_self c rest)
    have hrest : sep ∉ rest := fun hmem => h (List.mem_cons_of_mem c hmem)
    simp only [splitSep, if_neg hc]
    rw [splitSep_no_sep hrest]

theorem splitSep_append_sep {sep : Char} :
    ∀ {a : List Char} (b : List Char), sep ∉ a →
      splitSep sep (a ++ sep :: b) = a :: splitSep sep b
  | [], b, _ => by simp [splitSep]
  | c :: a2, b, h => by
    have hc : ¬(c == sep) = true := by
      simp only [beq_iff_eq]
      intro hcon
      exact h (hcon ▸ List.mem_cons_self c a2)
    have ha2 : sep ∉ a2 := fun hmem => h (List.mem_cons_of_mem c hmem)
    have hIH := @splitSep_append_sep sep a2 b ha2
    simp only [List.cons_append, splitSep, if_neg hc]
    rw [List.append_eq, hIH]

theorem splitSep_no_sep_in_piece {sep : Char} :
    ∀ (l : List Char), ∀ seg ∈ splitSep sep l, sep ∉ seg
  | [], seg, hseg => by
    simp only [splitSep, List.mem_singleton] at hseg
    subst hseg
    exact List.not_mem_nil sep
  | c :: rest, seg, hseg => by
    by_cases hc : (c == sep) = true
    · simp only [splitSep, if_pos hc, List.mem_cons] at hseg
      rcases hseg with rfl | hseg
      · exact List.not_mem_nil sep
      · exact splitSep_no_sep_in_piece rest seg hseg
    · simp only [splitSep, if_neg hc] at hseg
      cases htail : splitSep sep rest with
      | nil =>
        rw [htail] at hseg
        simp only [List.mem_singleton] at hseg
        subst hseg
        intro hmem
        rcases List.mem_cons.mp hmem with hmem | hmem
        · exact hc (by simp [hmem])
        · exact List.not_mem_nil sep hmem
      | cons s segs =>
        rw [htail] at hseg
        rcases List.mem_cons.mp hseg with rfl | hseg
        · intro hmem
          rcases List.mem_cons.mp hmem with hmem | hmem
          · exact hc (by simp [hmem])
          · have hs := splitSep_no_sep_in_piece rest s
              (htail ▸ List.mem_cons_self s segs)
            exact hs hmem
        · exact splitSep_no_sep_in_piece rest seg
            (htail ▸ List.mem_cons_of_mem s hseg)

theorem segsOf_good (k : String) : ∀ t ∈ segsOf k, goodSeg t := by
  intro t ht
  unfold segsOf at ht
  rcases List.mem_map.mp ht with ⟨seg, hseg, rfl⟩
  rcases List.mem_filter.mp hseg with ⟨hsplit, hcond⟩
  simp only [Bool.and_eq_true, bne_iff_ne, ne_eq] at hcond
  refine ⟨?_, ?_, ?_⟩
  · intro hcon
    have hd := congrArg String.data hcon
    exact hcond.1 (by simpa using hd)
  · intro hcon
    have hd := congrArg String.data hcon
    exact hcond.2 (by simpa using hd)
  · exact splitSep_no_sep_in_piece k.data seg hsplit

theorem segsOf_join :
    ∀ (segs : List String), (∀ s ∈ segs, goodSeg s) → segsOf (joinSegs segs) = segs
  | [], _ => by decide
  | [s], h => by
    rcases h s (List.mem_singleton.mpr rfl) with ⟨h1, h2, h3⟩
    show segsOf s = [s]
    unfold segsOf partsOf
    rw [splitSep_no_sep h3]
    have hne : ¬s.data = [] := fun hcon => h1 (string_data_inj (by simpa using hcon))
    have hnd : ¬s.data = ['.'] := fun hcon => h2 (string_data_inj (by simpa using hcon))
    rw [List.filter_cons_of_pos (by simpa using ⟨hne, hnd⟩)]
    simp only [List.filter_nil, List.map_cons, List.map_nil]
  | s :: r :: rs, h => by
    rcases h s (List.mem_cons_self s (r :: rs)) with ⟨h1, h2, h3⟩
    have hrest : ∀ x ∈ r :: rs, goodSeg x := fun x hx => h x (List.mem_cons_of_mem s hx)
    have hjoin : joinSegs (s :: r :: rs) = s ++ "/" ++ joinSegs (r :: rs) := rfl
    have hdata : (s ++ "/" ++ joinSegs (r :: rs)).data =
        s.data ++ '/' :: (joinSegs (r :: rs)).data := by
      simp [String.data_append]
    unfold segsOf partsOf
    rw [hjoin, hdata, splitSep_append_sep _ h3]
    have hne : ¬s.data = [] := fun hcon => h1 (string_data_inj (by simpa using hcon))
    have hnd : ¬s.data = ['.'] := fun hcon => h2 (string_data_inj (by simpa using hcon))
    rw [List.filter_cons_of_pos (by simpa using ⟨hne, hnd⟩)]
    simp only [List.map_cons]
    have hih := segsOf_join (r :: rs) hrest
    unfold segsOf partsOf at hih
    rw [hih]

theorem segsOf_parentKey (k : String) :
    segsOf (parentKey k) = (segsOf k).dropLast := by
  unfold parentKey
  refine segsOf_join _ ?_
  intro s hs
  exact segsOf_good k s (List.dropLast_sublist (segsOf k) |>.mem hs)

theorem parentKey_empty : parentKey "" = "" := by decide

theorem iterParent_empty : ∀ j, iterParent j "" = ""
  | 0 => rfl
  | j + 1 => by
    simp only [iterParent, parentKey_empty]
    exact iterParent_empty j

theorem iterParent_succ_out (j : Nat) :
    ∀ k, iterParent (j + 1) k = parentKey (iterParent j k) := by
  induction j with
  | zero => intro k; rfl
  | succ j2 ih =>
    intro k
    show iterParent (j2 + 1) (parentKey k) = _
    rw [ih (parentKey k)]
    rfl

theorem mapHas_iff {nm : List (String × PathNode)} {k : String} :
    mapHas nm k = true ↔ k ∈ keysOf nm := by
  unfold mapHas keysOf
  rw [List.find?_isSome]
  constructor
  · rintro ⟨p, hp, hpk⟩
    exact List.mem_map.mpr ⟨p, hp, by simpa using hpk⟩
  · intro hmem
    rcases List.mem_map.mp hmem with ⟨p, hp, hpk⟩
    exact ⟨p, hp, by simp [hpk]⟩

theorem missingChainF_closure :
    ∀ (fuel : Nat) (nm : List (String × PathNode)) (k : String),
      (segsOf k).length < fuel →
      ∀ x ∈ missingChainF fuel nm k,
        parentKey x ∈ missingChainF fuel nm k ∨
          mapHas nm (parentKey x) = true ∨ parentKey x = "" := by
  intro fuel
  induction fuel with
  | zero =>
    intro nm k hf x hx
    simp [missingChainF] at hx
  | succ f ih =>
    intro nm k hf x hx
    by_cases hcond : (mapHas nm k || k == "") = true
    · rw [missingChainF, if_pos hcond] at hx
      simp at hx
    · rw [missingChainF, if_neg hcond] at hx
      rw [missingChainF, if_neg hcond]
      have hparseg : segsOf (parentKey k) = (segsOf k).dropLast := segsOf_parentKey k
      rcases List.mem_cons.mp hx with rfl | hx
      · by_cases hseg : segsOf x = []
        · right; right
          unfold parentKey
          rw [hseg]
          rfl
        · have hf1 : 1 ≤ f := by
            have hpos : 1 ≤ (segsOf x).length := List.length_pos.mpr hseg
            omega
          cases f with
          | zero => omega
          | succ f2 =>
            by_cases hsub : (mapHas nm (parentKey x) || parentKey x == "") = true
            · have hsub2 : mapHas nm (parentKey x) = true ∨ parentKey x = "" := by
                simpa using hsub
              rcases hsub2 with hsub2 | hsub2
              · exact Or.inr (Or.inl hsub2)
              · exact Or.inr (Or.inr hsub2)
            · left
              refine List.mem_cons_of_mem x ?_
              rw [missingChainF, if_neg hsub]
              exact List.mem_cons_self _ _
      · have hflt : (segsOf (parentKey k)).length < f := by
          cases f with
          | zero => simp [missingChainF] at hx
          | succ f2 =>
            rw [hparseg, List.length_dropLast]
            have hfk := hf
            omega
        rcases ih nm (parentKey k) hflt x hx with h | h | h
        · exact Or.inl (List.mem_cons_of_mem k h)
        · exact Or.inr (Or.inl h)
        · exact Or.inr (Or.inr h)

theorem childrenAt_append_self :
    ∀ (cm : List (String × List String)) (par child : String),
      childrenAt (childAppend cm par child) par = childrenAt cm par ++ [child]
  | [], par, child => by
    simp [childAppend, childrenAt]
  | (k, l) :: rest, par, child => by
    by_cases hk : k = par
    · subst hk
      have hred : childAppend ((k, l) :: rest) k child = (k, l ++ [child]) :: rest := by
        simp [childAppend]
      rw [hred]
      unfold childrenAt
      rw [List.find?_cons_of_pos _ (by simp), List.find?_cons_of_pos _ (by simp)]
      rfl
    · have hred : childAppend ((k, l) :: rest) par child =
          (k, l) :: childAppend rest par child := by
        simp [childAppend, hk]
      rw [hred]
      unfold childrenAt
      rw [List.find?_cons_of_neg _ (by simp [hk]),
        List.find?_cons_of_neg _ (by simp [hk])]
      exact childrenAt_append_self rest par child

theorem childrenAt_append_other :
    ∀ (cm : List (String × List String)) (par child q : String), q ≠ par →
      childrenAt (childAppend cm par child) q = childrenAt cm q
  | [], par, child, q, hne => by
    unfold childAppend childrenAt
    rw [List.find?_cons_of_neg _ (by simpa using fun h => hne h.symm)]
  | (k, l) :: rest, par, child, q, hne => by
    by_cases hk : k = par
    · subst hk
      have hred : childAppend ((k, l) :: rest) k child = (k, l ++ [child]) :: rest := by
        simp [childAppend]
      rw [hred]
      have hkq : k ≠ q := fun h => hne (h.symm)
      unfold childrenAt
      rw [List.find?_cons_of_neg _ (by simp [hkq]),
        List.find?_cons_of_neg _ (by simp [hkq])]
    · have hred : childAppend ((k, l) :: rest) par child =
          (k, l) :: childAppend rest par child := by
        simp [childAppend, hk]
      rw [hred]
      by_cases hq : k = q
      · subst hq
        unfold childrenAt
        rw [List.find?_cons_of_pos _ (by simp), List.find?_cons_of_pos _ (by simp)]
      · unfold childrenAt
        rw [List.find?_cons_of_neg _ (by simp [hq]),
          List.find?_cons_of_neg _ (by simp [hq])]
        exact childrenAt_append_other rest par child q hne

theorem childAppend_mem {cm : List (String × List String)} {p c : String}
    (par child : String) (h : c ∈ childrenAt cm p) :
    c ∈ childrenAt (childAppend cm par child) p := by
  by_cases hp : p = par
  · subst hp
    rw [childrenAt_append_self]
    exact List.mem_append.mpr (Or.inl h)
  · rwa [childrenAt_append_other cm par child p hp]

theorem buildTreeGo_children_mono (root : String) :
    ∀ (ks : List String) (nm : List (String × PathNode))
      (cm : List (String × List String)) (p c : String),
      c ∈ childrenAt cm p → c ∈ childrenAt (buildTreeGo root ks nm cm).2 p
  | [], _, _, _, _, h => h
  | rel :: rest, nm, cm, p, c, h => by
    simp only [buildTreeGo]
    exact buildTreeGo_children_mono root rest _ _ p c (childAppend_mem _ _ h)

theorem buildTreeGo_attach (root : String) :
    ∀ (ks : List String) (nm : List (String × PathNode))
      (cm : List (String × List String)),
      ∀ rel ∈ ks, rel ∈ childrenAt (buildTreeGo root ks nm cm).2 (parentKey rel)
  | [], _, _, rel, hrel => absurd hrel (List.not_mem_nil rel)
  | rel0 :: rest, nm, cm, rel, hrel => by
    simp only [buildTreeGo]
    rcases List.mem_cons.mp hrel with rfl | hrel
    · refine buildTreeGo_children_mono root rest _ _ _ _ ?_
      rw [childrenAt_append_self]
      exact List.mem_append.mpr (Or.inr (List.mem_singleton.mpr rfl))
    · exact buildTreeGo_attach root rest _ _ rel hrel

theorem keysOf_createVirtualAdd (root : String) (nm : List (String × PathNode))
    (k : String) :
    keysOf (createVirtualAdd root nm k) = keysOf nm ++ (missingChain nm k).reverse := by
  unfold createVirtualAdd keysOf
  rw [List.map_append, List.map_map]
  have hid : (Prod.fst ∘ fun m => (m, virtualNode root m)) = @id String := rfl
  rw [hid, List.map_id]

theorem buildTreeGo_keys_mono (root : String) :
    ∀ (ks : List String) (nm : List (String × PathNode))
      (cm : List (String × List String)),
      ∀ x ∈ keysOf nm, x ∈ keysOf (buildTreeGo root ks nm cm).1
  | [], _, _, x, hx => hx
  | rel :: rest, nm, cm, x, hx => by
    simp only [buildTreeGo]
    refine buildTreeGo_keys_mono root rest _ _ x ?_
    by_cases hh : mapHas nm (parentKey rel) = true
    · rw [if_pos hh]
      exact hx
    · rw [if_neg hh, keysOf_createVirtualAdd]
      exact List.mem_append.mpr (Or.inl hx)

theorem buildTreeGo_closure (root : String) :
    ∀ (ks : List String) (nm : List (String × PathNode))
      (cm : List (String × List String)),
      (∀ x ∈ keysOf nm, x ∈ ks ∨ parentKey x ∈ keysOf nm ∨ parentKey x = "" ∨ x = "") →
      ∀ x ∈ keysOf (buildTreeGo root ks nm cm).1,
        parentKey x ∈ keysOf (buildTreeGo root ks nm cm).1 ∨
          parentKey x = "" ∨ x = ""
  | [], nm, cm, hinv, x, hx => by
    rcases hinv x hx with h | h | h | h
    · exact absurd h (List.not_mem_nil x)
    · exact Or.inl h
    · exact Or.inr (Or.inl h)
    · exact Or.inr (Or.inr h)
  | rel :: rest, nm, cm, hinv, x, hx => by
    simp only [buildTreeGo] at hx ⊢
    set par := parentKey rel with hpar
    have hpar2 : par ∈ keysOf (if mapHas nm par then nm else createVirtualAdd root nm par) ∨
        par = "" := by
      by_cases hh : mapHas nm par = true
      · rw [if_pos hh]
        exact Or.inl (mapHas_iff.mp hh)
      · by_cases hpe : par = ""
        · exact Or.inr hpe
        · rw [if_neg hh, keysOf_createVirtualAdd]
          refine Or.inl (List.mem_append.mpr (Or.inr ?_))
          refine List.mem_reverse.mpr ?_
          unfold missingChain
          rw [missingChainF, if_neg (by simp [hh, hpe])]
          exact List.mem_cons_self _ _
    have hinv2 : ∀ y ∈ keysOf (if mapHas nm par then nm else createVirtualAdd root nm par),
        y ∈ rest ∨
          parentKey y ∈ keysOf (if mapHas nm par then nm else createVirtualAdd root nm par) ∨
          parentKey y = "" ∨ y = "" := by
      intro y hy
      have hmono : ∀ z ∈ keysOf nm,
          z ∈ keysOf (if mapHas nm par then nm else createVirtualAdd root nm par) := by
        intro z hz
        by_cases hh : mapHas nm par = true
        · rwa [if_pos hh]
        · rw [if_neg hh, keysOf_createVirtualAdd]
          exact List.mem_append.mpr (Or.inl hz)
      have hold : y ∈ keysOf nm →
          y ∈ rest ∨
            parentKey y ∈ keysOf (if mapHas nm par then nm else createVirtualAdd root nm par) ∨
            parentKey y = "" ∨ y = "" := by
        intro hyold
        rcases hinv y hyold with h | h | h | h
        · rcases List.mem_cons.mp h with rfl | h
          · rcases hpar2 with h2 | h2
            · exact Or.inr (Or.inl h2)
            · exact Or.inr (Or.inr (Or.inl h2))
          · exact Or.inl h
        · exact Or.inr (Or.inl (hmono _ h))
        · exact Or.inr (Or.inr (Or.inl h))
        · exact Or.inr (Or.inr (Or.inr h))
      by_cases hh : mapHas nm par = true
      · rw [if_pos hh] at hy
        exact hold hy
      · rw [if_neg hh, keysOf_createVirtualAdd] at hy
        rcases List.mem_append.mp hy with hy | hy
        · exact hold hy
        · have hy2 : y ∈ missingChain nm par := List.mem_reverse.mp hy
          unfold missingChain at hy2
          rcases missingChainF_closure ((segsOf par).length + 1) nm par (by omega) y hy2
            with h | h | h
          · refine Or.inr (Or.inl ?_)
            rw [if_neg hh, keysOf_createVirtualAdd]
            refine List.mem_append.mpr (Or.inr (List.mem_reverse.mpr ?_))
            unfold missingChain
            exact h
          · exact Or.inr (Or.inl (hmono _ (mapHas_iff.mp h)))
          · exact Or.inr (Or.inr (Or.inl h))
    exact buildTreeGo_closure root rest _ _ hinv2 x hx

/-- C7 (amended): the tree-reconstruction pass processes the recorded
non-root keys in the order given by sorting on the pair (segment tuple,
key) — segment tuples compared lexicographically, not depth-first — and,
in that order, appends every key to its parent's child list, synthesizing
the missing ancestors in the node map so that every iterated parent of a
recorded key ends up present in the final map (or is the root key). -/
theorem C7_tree_reconstruction (root : String) (nm : List (String × PathNode)) :
    List.Perm (orderedKeysOf nm) ((keysOf nm).filter (fun k => k ≠ "")) ∧
    (orderedKeysOf nm).Pairwise keyOrder ∧
    (∀ rel ∈ orderedKeysOf nm, rel ∈ childrenAt (buildTree root nm).2 (parentKey rel)) ∧
    (∀ k ∈ keysOf nm, ∀ j : Nat,
      iterParent j k ∈ keysOf (buildTree root nm).1 ∨ iterParent j k = "") := by
  refine ⟨?_, ?_, ?_, ?_⟩
  · unfold orderedKeysOf keysOf
    exact List.perm_insertionSort keyOrder _
  · exact List.sorted_insertionSort keyOrder _
  · intro rel hrel
    exact buildTreeGo_attach root (orderedKeysOf nm) nm [] rel hrel
  · have hinv : ∀ x ∈ keysOf nm,
        x ∈ orderedKeysOf nm ∨ parentKey x ∈ keysOf nm ∨ parentKey x = "" ∨ x = "" := by
      intro x hx
      by_cases hxe : x = ""
      · exact Or.inr (Or.inr (Or.inr hxe))
      · refine Or.inl ?_
        have hmem : x ∈ ((nm.map Prod.fst).filter (fun k => k ≠ "")) :=
          List.mem_filter.mpr ⟨hx, by simpa using hxe⟩
        unfold orderedKeysOf
        exact ((List.perm_insertionSort keyOrder _).mem_iff).mpr hmem
    have hclosure := buildTreeGo_closure root (orderedKeysOf nm) nm [] hinv
    intro k hk j
    induction j with
    | zero =>
      exact Or.inl (buildTreeGo_keys_mono root (orderedKeysOf nm) nm [] k hk)
    | succ j2 ih =>
      rw [iterParent_succ_out]
      rcases ih with h | h
      · rcases hclosure (iterParent j2 k) h with h2 | h2 | h2
        · exact Or.inl h2
        · exact Or.inr h2
        · rw [h2, parentKey_empty]
          exact Or.inr rfl
      · rw [h, parentKey_empty]
        exact Or.inr rfl

/-- Witness for C7 (amended) on a one-key node map with a missing
ancestor. -/
theorem C7_tree_reconstruction_witness :
    "a/x" ∈ childrenAt
      (buildTree "/r" [("a/x", { abs_path := "/r/a/x", rel_path := "a/x", type := .file })]).2
      (parentKey "a/x") ∧
    (iterParent 1 "a/x" ∈ keysOf
      (buildTree "/r" [("a/x", { abs_path := "/r/a/x", rel_path := "a/x", type := .file })]).1 ∨
      iterParent 1 "a/x" = "") :=
  ⟨(C7_tree_reconstruction "/r"
      [("a/x", { abs_path := "/r/a/x", rel_path := "a/x", type := .file })]).2.2.1
      "a/x" (by decide),
    (C7_tree_reconstruction "/r"
      [("a/x", { abs_path := "/r/a/x", rel_path := "a/x", type := .file })]).2.2.2
      "a/x" (by decide) 1⟩

end RFE
